import Mathlib

/-!
Verification development for the mind-map view of the knowledge-synthesis
platform frontend.  The definitions below are a shallow embedding of the
layout and synchronisation code of the mind-map modal component
(`convertMindMapToFlow`, `estimateSelfHeight`, `calcHeight`, the per-level
collision passes, the recentering pass, and the polling/socket coordinator).
Pixel coordinates are modelled as exact rationals; the source computes the
same arithmetic on IEEE doubles, but every operation used (addition,
subtraction, halving, min/max, comparison) coincides with exact arithmetic
on the inputs exercised here.  JavaScript `Set` objects holding node ids are
modelled as `Finset String`.
-/

/-- A node of the server-produced mind map (`MindMapNode` in `api.ts`):
an id (unique within the tree), a title, an optional description and an
ordered list of children.  The optional `parent_id` field is never read by
the layout code and is omitted. -/
inductive MindMapNode where
  | mk (id : String) (title : String) (description : Option String)
      (children : List MindMapNode)

def MindMapNode.id : MindMapNode → String
  | .mk i _ _ _ => i

def MindMapNode.title : MindMapNode → String
  | .mk _ t _ _ => t

def MindMapNode.description : MindMapNode → Option String
  | .mk _ _ d _ => d

def MindMapNode.children : MindMapNode → List MindMapNode
  | .mk _ _ _ c => c

/-- The server artifact (`GlobalMindMap` in `api.ts`): a list of root
nodes plus correlation identifiers that the layout never reads. -/
structure GlobalMindMap where
  user_id : String
  thread_id : String
  roots : List MindMapNode

/-- `n.description || ''` — JavaScript truthiness collapses both a missing
and an empty description to the empty string. -/
def descText (n : MindMapNode) : String := n.description.getD ""

/-- Shallow embedding of `estimateSelfHeight` (the size estimator): a
collapsed node, or a node without a (nonempty) description, gets the fixed
baseline height 72; an expanded node with a description estimates
`ceil(length/80)` lines of 18px, adds padding and a safety margin and is
clamped to the UI scroll clamp `72 + 36 + 220`. -/
def estimateSelfHeight (E : Finset String) (n : MindMapNode) : ℕ :=
  let baseCollapsed := 72
  if n.id ∈ E ∧ descText n ≠ "" then
    let charsPerLine := 80
    let lines := ((descText n).length + (charsPerLine - 1)) / charsPerLine
    let lineHeight := 18
    let padding := 36
    let safety := 28
    let raw := baseCollapsed + padding + lines * lineHeight + safety
    let maxHeight := baseCollapsed + padding + 220
    min raw maxHeight
  else baseCollapsed

mutual
/-- Shallow embedding of `calcHeight` (the bottom-up sizing pass): a leaf
gets `max(100, estimateSelfHeight)`, an internal node gets
`max(self, max(Σ children.requiredHeight + childCount·48, 100))`. -/
def calcHeight (E : Finset String) (n : MindMapNode) : ℕ :=
  match n with
  | .mk i t d cs =>
    if cs.isEmpty then max 100 (estimateSelfHeight E (.mk i t d cs))
    else
      let total := calcHeightSum E cs
      let minGap := 48
      let self := estimateSelfHeight E (.mk i t d cs)
      let childrenSpace := max (total + cs.length * minGap) 100
      max self childrenSpace

/-- Sum of `calcHeight` over a list of children (the `for` accumulation in
`calcHeight`). -/
def calcHeightSum (E : Finset String) (cs : List MindMapNode) : ℕ :=
  match cs with
  | [] => 0
  | c :: rest => calcHeight E c + calcHeightSum E rest
end

mutual
/-- All nodes of a forest in depth-first preorder (the order in which
`add` visits them). -/
def forestNodes (roots : List MindMapNode) : List MindMapNode :=
  match roots with
  | [] => []
  | n :: rest => nodeSubtree n ++ forestNodes rest

/-- A node and all its descendants in preorder. -/
def nodeSubtree (n : MindMapNode) : List MindMapNode :=
  match n with
  | .mk i t d cs => .mk i t d cs :: forestNodes cs
end

/-- Ids of a forest in preorder. -/
def forestIds (roots : List MindMapNode) : List String :=
  (forestNodes roots).map (·.id)

mutual
/-- Preorder (id, depth) pairs of a forest rooted at depth `d`; this is
the id/level bookkeeping that placement records in `levelMap`. -/
def idLvls (d : ℕ) (roots : List MindMapNode) : List (String × ℕ) :=
  match roots with
  | [] => []
  | n :: rest => nodeLvls d n ++ idLvls d rest

/-- Preorder (id, depth) pairs of one subtree rooted at depth `d`. -/
def nodeLvls (d : ℕ) (n : MindMapNode) : List (String × ℕ) :=
  match n with
  | .mk i _ _ cs => (i, d) :: idLvls (d + 1) cs
end

mutual
/-- Preorder lookup of the node with a given id (the `idToMindNode` map;
ids are unique in well-formed input, so first match is the match). -/
def findNode? (roots : List MindMapNode) (a : String) : Option MindMapNode :=
  match roots with
  | [] => none
  | n :: rest =>
    match findInNode? n a with
    | some m => some m
    | none => findNode? rest a

/-- Lookup of an id inside one subtree. -/
def findInNode? (n : MindMapNode) (a : String) : Option MindMapNode :=
  match n with
  | .mk i t d cs =>
    if i = a then some (.mk i t d cs) else findNode? cs a
end

/-- Ids reached from `a` through the `childrenMap` closure: `a`'s whole
subtree (the set `applyShiftRec` moves). -/
def subtreeIds (roots : List MindMapNode) (a : String) : List String :=
  match findNode? roots a with
  | some n => (nodeSubtree n).map (·.id)
  | none => []

/-- The `childrenMap` entry of `a`: ids of its direct children. -/
def childIdsOf (roots : List MindMapNode) (a : String) : List String :=
  match findNode? roots a with
  | some n => n.children.map (·.id)
  | none => []

/-- A positioned output node (the fields of the React Flow node that the
layout computes: id, depth level, absolute position and expansion flag). -/
structure PNode where
  id : String
  level : ℕ
  x : ℚ
  y : ℚ
  isExpanded : Bool
deriving DecidableEq, Repr

/-- A derived output edge: parent id, child id and the child's level
(the level determines stroke width / animation styling). -/
structure LEdge where
  source : String
  target : String
  level : ℕ
deriving DecidableEq, Repr

/-- The layout output: positioned nodes and edges, both in the order the
source pushes them. -/
structure FlowOut where
  nodes : List PNode
  edges : List LEdge
deriving DecidableEq, Repr

mutual
/-- Shallow embedding of `add`: place node `n` centered in the vertical
band `[allocY, allocY + allocH)` of column `level`, then place its
children in consecutive sub-bands of width `requiredHeight` starting at
the top of the band. -/
def placeNode (E : Finset String) (n : MindMapNode) (parent : Option String)
    (level : ℕ) (allocY allocH : ℚ) : List PNode × List LEdge :=
  match n with
  | .mk i _ _ cs =>
    let x : ℚ := 200 + (level : ℚ) * 520
    let y : ℚ := allocY + allocH / 2
    let self : PNode := ⟨i, level, x, y, decide (i ∈ E)⟩
    let selfEdges : List LEdge :=
      match parent with
      | some p => [⟨p, i, level⟩]
      | none => []
    let rest := placeChildren E cs i (level + 1) allocY
    (self :: rest.1, selfEdges ++ rest.2)

/-- The child loop of `add`: each child is allocated a band equal to its
`_requiredHeight` (always `calcHeight`, which is positive, so the
`|| 100` fallback of the source never fires). -/
def placeChildren (E : Finset String) (cs : List MindMapNode) (pid : String)
    (level : ℕ) (childY : ℚ) : List PNode × List LEdge :=
  match cs with
  | [] => ([], [])
  | c :: rest =>
    let h : ℚ := (calcHeight E c : ℚ)
    let first := placeNode E c (some pid) level childY h
    let more := placeChildren E rest pid level (childY + h)
    (first.1 ++ more.1, first.2 ++ more.2)
end

/-- The root loop: roots are stacked from `y = 50`, each given its
required height as band, separated by 50. -/
def placeRoots (E : Finset String) (roots : List MindMapNode) (rootY : ℚ) :
    List PNode × List LEdge :=
  match roots with
  | [] => ([], [])
  | r :: rest =>
    let rh : ℚ := (calcHeight E r : ℚ)
    let first := placeNode E r none 0 rootY rh
    let more := placeRoots E rest (rootY + rh + 50)
    (first.1 ++ more.1, first.2 ++ more.2)

/-- `heightOf` of the collision passes: the (clamped) self height of the
node with a given id; a missing id falls back to 100. -/
def heightOf (roots : List MindMapNode) (E : Finset String) (a : String) : ℚ :=
  match findNode? roots a with
  | some m => ((max 100 (estimateSelfHeight E m) : ℕ) : ℚ)
  | none => 100

/-- Current y of the node with id `a` in the working node list (the
`newNodes[idToIndex.get(a)].position.y` read; 0 when absent, which the
pipeline never hits on well-formed input). -/
def yOf (ns : List PNode) (a : String) : ℚ :=
  match ns.find? (fun p => p.id = a) with
  | some p => p.y
  | none => 0

/-- `applyShiftRec`: move every node whose id lies in `s` down by `dy`. -/
def shiftIds (s : List String) (dy : ℚ) (ns : List PNode) : List PNode :=
  ns.map (fun p => if p.id ∈ s then { p with y := p.y + dy } else p)

/-- Overwrite the y of the node with id `a`. -/
def setYOf (a : String) (v : ℚ) (ns : List PNode) : List PNode :=
  ns.map (fun p => if p.id = a then { p with y := v } else p)

/-- The in-order walk of one level of the collision pass: `prevBottom`
starts at `-Infinity` (modelled as `none`); a node whose top is above
`prevBottom + 52` is pushed down, together with its whole subtree. -/
def collideGo (roots : List MindMapNode) (E : Finset String) :
    List String → Option ℚ → List PNode → List PNode
  | [], _, ns => ns
  | a :: rest, prevBottom, ns =>
    let h := heightOf roots E a
    let y := yOf ns a
    let top := y - h / 2
    match prevBottom with
    | none => collideGo roots E rest (some (top + h)) ns
    | some pb =>
      let requiredTop := pb + 52
      if top < requiredTop then
        collideGo roots E rest (some (requiredTop + h))
          (shiftIds (subtreeIds roots a) (requiredTop - top) ns)
      else collideGo roots E rest (some (top + h)) ns

/-- Ids of the working nodes at one depth level, in list (= insertion)
order: the `levelMap` entry for that level. -/
def idsAtLevel (ns : List PNode) (lvl : ℕ) : List String :=
  (ns.filter (fun p => p.level = lvl)).map (·.id)

/-- One level of the collision pass: sort that level's ids by current y
(ascending; the JavaScript sort is stable, which `insertionSort` with `≤`
reproduces) and run the pushing walk. -/
def collideLevel (roots : List MindMapNode) (E : Finset String)
    (lvlIds : List String) (ns : List PNode) : List PNode :=
  collideGo roots E
    (List.insertionSort (fun a b => yOf ns a ≤ yOf ns b) lvlIds) none ns

/-- `runCollisionPass`: the per-level walks, in ascending level order. -/
def runCollisionPass (roots : List MindMapNode) (E : Finset String)
    (levels : List ℕ) (lvlIds : ℕ → List String) (ns : List PNode) :
    List PNode :=
  levels.foldl (fun acc lvl => collideLevel roots E (lvlIds lvl) acc) ns

/-- The greatest level present (`Math.max(...levels)`, 0 when empty). -/
def maxLevelOf (ns : List PNode) : ℕ :=
  (ns.map (·.level)).foldl max 0

/-- The ascending list of levels present (`Array.from(levelMap.keys())`
sorted ascending). -/
def levelsOf (ns : List PNode) : List ℕ :=
  (List.range (maxLevelOf ns + 1)).filter (fun l => idsAtLevel ns l ≠ [])

/-- Recenter one node on the mean y of its children (no-op for nodes
without children). -/
def recenterNode (roots : List MindMapNode) (a : String) (ns : List PNode) :
    List PNode :=
  let kids := childIdsOf roots a
  if kids.isEmpty then ns
  else setYOf a ((kids.map (yOf ns)).sum / (kids.length : ℚ)) ns

/-- Recenter every node of one level, in `levelMap` order. -/
def recenterLevel (roots : List MindMapNode) (lvlIds : List String)
    (ns : List PNode) : List PNode :=
  lvlIds.foldl (fun acc a => recenterNode roots a acc) ns

/-- The bottom-up recentering pass: levels `maxLevel-1, …, 0`. -/
def recenterAll (roots : List MindMapNode) (maxLevel : ℕ)
    (lvlIds : ℕ → List String) (ns : List PNode) : List PNode :=
  ((List.range maxLevel).reverse).foldl
    (fun acc lvl => recenterLevel roots (lvlIds lvl) acc) ns

/-- Nodes as placed by the top-down pass, before any collision handling. -/
def placedNodes (E : Finset String) (roots : List MindMapNode) : List PNode :=
  (placeRoots E roots 50).1

/-- The layout state after the first collision pass. -/
def pass1Nodes (E : Finset String) (roots : List MindMapNode) : List PNode :=
  runCollisionPass roots E (levelsOf (placedNodes E roots))
    (idsAtLevel (placedNodes E roots)) (placedNodes E roots)

/-- The layout state after the recentering pass. -/
def recenteredNodes (E : Finset String) (roots : List MindMapNode) :
    List PNode :=
  recenterAll roots (maxLevelOf (placedNodes E roots))
    (idsAtLevel (placedNodes E roots)) (pass1Nodes E roots)

/-- The final node positions: second collision pass applied to the
recentered state. -/
def finalNodes (E : Finset String) (roots : List MindMapNode) : List PNode :=
  runCollisionPass roots E (levelsOf (placedNodes E roots))
    (idsAtLevel (placedNodes E roots)) (recenteredNodes E roots)

/-- Shallow embedding of `convertMindMapToFlow`: sizing, placement, first
collision pass, recentering, second collision pass; edges as recorded
during placement. -/
def convertMindMapToFlow (E : Finset String) (m : GlobalMindMap) : FlowOut :=
  ⟨finalNodes E m.roots, (placeRoots E m.roots 50).2⟩

/-- `translateExtent`: the pan bounding box derived from the node
positions, `none` when there are no nodes. -/
def translateExtent (ns : List PNode) : Option ((ℚ × ℚ) × (ℚ × ℚ)) :=
  match ns with
  | [] => none
  | p :: rest =>
    let xs := (p :: rest).map (·.x)
    let ys := (p :: rest).map (·.y)
    let minX := xs.foldl min p.x - 300
    let maxX := xs.foldl max p.x + 800
    let minY := ys.foldl min p.y - 300
    let maxY := ys.foldl max p.y + 300
    some ((minX, minY), (maxX, maxY))

/-- The expansion toggle of `onNodeClick`: delete the id if present,
insert it otherwise. -/
def toggleExpand (a : String) (E : Finset String) : Finset String :=
  if a ∈ E then E.erase a else insert a E

mutual
/-- Structural equality of nodes, kernel-computable (used to model the
`JSON.stringify` payload comparison of the poll de-duplication). -/
def nodeEqb : MindMapNode → MindMapNode → Bool
  | .mk i1 t1 d1 c1, .mk i2 t2 d2 c2 =>
    i1 == i2 && t1 == t2 && d1 == d2 && nodesEqb c1 c2

/-- Structural equality of node lists. -/
def nodesEqb : List MindMapNode → List MindMapNode → Bool
  | [], [] => true
  | a :: arest, b :: brest => nodeEqb a b && nodesEqb arest brest
  | _, _ => false
end

/-- Structural equality of artifacts. -/
def mapEqb (a b : GlobalMindMap) : Bool :=
  a.user_id == b.user_id && a.thread_id == b.thread_id
    && nodesEqb a.roots b.roots

/-- The poll response (`MindMapResponse` in `api.ts`): `status` and `data`
are optional fields. -/
structure MindMapResponse where
  mind_map : Bool
  status : Option Bool
  message : String
  data : Option GlobalMindMap

/-- Structural equality of poll responses — the meaning of the
`JSON.stringify(r) !== lastPayloadRef.current` de-duplication test. -/
def respEqb (a b : MindMapResponse) : Bool :=
  a.mind_map == b.mind_map && a.status == b.status
    && a.message == b.message
    && match a.data, b.data with
       | none, none => true
       | some x, some y => mapEqb x y
       | _, _ => false

/-- Is `r` the same payload as the remembered last one?  The initial
remembered payload (the empty string) matches no response. -/
def sameAsLast (r : MindMapResponse) : Option MindMapResponse → Bool
  | none => false
  | some old => respEqb r old

/-- A push-channel event payload (`ProgressPayload` in the component):
every field is optional and only `message` and `completed` are read. -/
structure ProgressPayload where
  message : Option String
  status : Option Bool
  data : Option GlobalMindMap
  completed : Option Bool

/-- The synchronisation coordinator's mutable state: the two refs
(`pollingActiveRef`, `pollingTimeoutRef`), the socket handle, the React
state (`status`, `mapData`, `message`, `showMessage`, `expandedNodes`),
the de-duplication ref, plus observational instrumentation: the number of
poll requests issued so far and whether one is currently in flight. -/
structure CoordState where
  active : Bool
  timer : Option ℕ
  socket : Bool
  status : Option Bool
  mapData : Option GlobalMindMap
  message : String
  showMessage : Bool
  lastPayload : Option MindMapResponse
  expanded : Finset String
  pollCount : ℕ
  inFlight : Bool

/-- The push-channel handler `onProgress`: copy a string `message` into
the progress text (and show it); on `completed === true`, stop polling,
clear the timer, disconnect the socket and hide the message.  It never
touches `status`, `mapData` or the expansion set, and never issues a
poll. -/
def onProgress (p : ProgressPayload) (s : CoordState) : CoordState :=
  let s1 :=
    match p.message with
    | some m => { s with message := m, showMessage := true }
    | none => s
  if p.completed = some true then
    { s1 with active := false, timer := none, socket := false,
              showMessage := false }
  else s1

/-- The tail of `pollOnce`: schedule the next run in 10000 ms, but only
if polling is still active. -/
def reschedule (s : CoordState) : CoordState :=
  if s.active then { s with timer := some 10000 } else s

/-- Entry of `pollOnce` (reached from the initial call or a timer fire):
re-check the active flag, then issue the request. -/
def pollBegin (s : CoordState) : CoordState :=
  if s.active then { s with inFlight := true, pollCount := s.pollCount + 1 }
  else s

/-- A pending timer fires: the timeout handle is consumed and `pollOnce`
starts. -/
def fireTimer (s : CoordState) : CoordState :=
  match s.timer with
  | none => s
  | some _ => pollBegin { s with timer := none }

/-- The in-flight poll request settles (`await api.getMindMap` resumes):
if the coordinator was stopped meanwhile the response is discarded
entirely; otherwise a successful response updates `status`/`mapData`
under the payload de-duplication guard, a `mind_map: false` response
stops polling, an error is swallowed; finally the next tick is scheduled
when still active. -/
def pollSettle (res : Except Unit MindMapResponse) (s : CoordState) :
    CoordState :=
  let s0 := { s with inFlight := false }
  if s.active = false then s0
  else
    match res with
    | .error _ => reschedule s0
    | .ok r =>
      let s1 :=
        if sameAsLast r s0.lastPayload then s0
        else
          { s0 with lastPayload := some r,
                    status := r.status,
                    mapData :=
                      if r.status = some true ∧ r.data.isSome then r.data
                      else s0.mapData }
      if r.mind_map = false then { s1 with active := false, timer := none }
      else reschedule s1

/-- `closeEverything` / the unmount cleanup: stop polling, clear the
timer, detach the socket. -/
def closeCoordinator (s : CoordState) : CoordState :=
  { s with active := false, timer := none, socket := false }

/-- The events that can reach the coordinator after start-up. -/
inductive CoordEvent where
  | push (p : ProgressPayload)
  | timerFire
  | settle (res : Except Unit MindMapResponse)
  | close

/-- One event step. -/
def coordStep (e : CoordEvent) (s : CoordState) : CoordState :=
  match e with
  | .push p => onProgress p s
  | .timerFire => fireTimer s
  | .settle res => pollSettle res s
  | .close => closeCoordinator s

/-- A whole event trace. -/
def runCoord (es : List CoordEvent) (s : CoordState) : CoordState :=
  es.foldl (fun acc e => coordStep e acc) s

/-- The stopped configuration reached by completion, close or a
`mind_map: false` poll: polling flag cleared, no pending timer. -/
def coordStopped (s : CoordState) : Prop :=
  s.active = false ∧ s.timer = none

/-- The structural (y-independent) part of a positioned node. -/
def keyOf (p : PNode) : String × ℕ := (p.id, p.level)

/-- The separation bookkeeping established by the collision walk: each id
of the list, read in the final state `yF`, has its top edge at least 52
below the running bottom, which then advances to its own bottom edge. -/
def chainOK (h yF : String → ℚ) : List String → Option ℚ → Prop
  | [], _ => True
  | a :: rest, pb =>
    (∀ b, pb = some b → b + 52 ≤ yF a - h a / 2) ∧
      chainOK h yF rest (some (yF a + h a / 2))

mutual
/-- The sizing formula exactly as the specification claim states it:
leaves get the self height clamped to the minimum leaf height, internal
nodes get `max(self, Σ children + (childCount − 1)·minGap)`. -/
def specClaimedHeight (E : Finset String) (n : MindMapNode) : ℕ :=
  match n with
  | .mk i t d cs =>
    let self := estimateSelfHeight E (.mk i t d cs)
    if cs.isEmpty then max 100 self
    else max self (specClaimedSum E cs + (cs.length - 1) * 48)

/-- Sum of the claimed required heights of a list of children. -/
def specClaimedSum (E : Finset String) (cs : List MindMapNode) : ℕ :=
  match cs with
  | [] => 0
  | c :: rest => specClaimedHeight E c + specClaimedSum E rest
end

mutual
/-- The sizing formula the code actually implements, phrased as the
amended claim: internal nodes get
`max(self, max(Σ children + childCount·minGap, 100))`. -/
def specAmendedHeight (E : Finset String) (n : MindMapNode) : ℕ :=
  match n with
  | .mk i t d cs =>
    let self := estimateSelfHeight E (.mk i t d cs)
    if cs.isEmpty then max 100 self
    else max self (max (specAmendedSum E cs + cs.length * 48) 100)

/-- Sum of the amended required heights of a list of children. -/
def specAmendedSum (E : Finset String) (cs : List MindMapNode) : ℕ :=
  match cs with
  | [] => 0
  | c :: rest => specAmendedHeight E c + specAmendedSum E rest
end

/-- A leaf with neither description nor children. -/
def bareLeaf (i : String) : MindMapNode := .mk i i none []

/-- Concrete input refuting the `(childCount−1)·minGap` sizing formula: a
root with exactly one leaf child. -/
def oneChildTree : MindMapNode := .mk "R" "R" none [bareLeaf "A"]

/-- Concrete input on which the second collision pass moves a child after
its parent was recentered: root `R` with a collapsed leaf `A` above an
expanded described node `B` that has one leaf child. -/
def meanCexTree : MindMapNode :=
  .mk "R" "R" none [bareLeaf "A", .mk "B" "B" (some "x") [bareLeaf "b1"]]

/-- The expansion set for `meanCexTree`: only `B` is expanded. -/
def meanCexE : Finset String := {"B"}

/-- Two collapsed leaf roots — a minimal input with two nodes sharing a
depth level. -/
def twoRoots : List MindMapNode := [bareLeaf "a", bareLeaf "b"]

/-- A quiescent coordinator state used to instantiate the coordinator
theorems on concrete inputs. -/
def sampleCoordState : CoordState where
  active := true
  timer := some 10000
  socket := true
  status := some false
  mapData := none
  message := "working"
  showMessage := true
  lastPayload := none
  expanded := ∅
  pollCount := 3
  inFlight := false

theorem calcHeightSum_eq_map_sum (E : Finset String) (cs : List MindMapNode) :
    calcHeightSum E cs = (cs.map (calcHeight E)).sum := by
  induction cs with
  | nil => simp [calcHeightSum]
  | cons c rest ih => simp [calcHeightSum, ih]

theorem specAmendedSum_eq_map_sum (E : Finset String) (cs : List MindMapNode) :
    specAmendedSum E cs = (cs.map (specAmendedHeight E)).sum := by
  induction cs with
  | nil => simp [specAmendedSum]
  | cons c rest ih => simp [specAmendedSum, ih]

/-- C1 (amended): the bottom-up sizing pass computes, for each leaf,
`requiredHeight = max(minimum leaf height, selfHeight)` and, for each
internal node, `requiredHeight = max(selfHeight, max(Σ
children.requiredHeight + childCount·minGap, 100))` — the gap term counts
every child (`childCount·minGap`, not `(childCount−1)·minGap`), and the
children space is floored at 100. -/
theorem calcHeight_eq_amended (E : Finset String) (n : MindMapNode) :
    calcHeight E n = specAmendedHeight E n := by
  match n with
  | .mk i t d cs =>
    have ih : ∀ c ∈ cs, calcHeight E c = specAmendedHeight E c := by
      intro c hc
      exact calcHeight_eq_amended E c
    rw [calcHeight, specAmendedHeight]
    by_cases hcs : cs.isEmpty
    · simp [hcs]
    · simp only [hcs, if_false]
      rw [calcHeightSum_eq_map_sum, specAmendedSum_eq_map_sum,
        List.map_congr_left ih]
termination_by sizeOf n
decreasing_by
  have := List.sizeOf_lt_of_mem hc
  simp
  omega

/-- C1 counterexample: on a root with one leaf child the claimed formula
`max(selfHeight, Σ children.requiredHeight + (childCount−1)·minGap)`
yields 100, while the code computes 148 (`= 100 + 1·48`). -/
theorem calcHeight_claim_cex :
    calcHeight ∅ oneChildTree = 148 ∧ specClaimedHeight ∅ oneChildTree = 100
      ∧ (148 : ℕ) ≠ 100 := by
  decide

/-- The size estimator reads the expansion set only through membership of
the node's own id. -/
theorem estimateSelfHeight_congr {E1 E2 : Finset String} (n : MindMapNode)
    (h : n.id ∈ E1 ↔ n.id ∈ E2) :
    estimateSelfHeight E1 n = estimateSelfHeight E2 n := by
  simp only [estimateSelfHeight, h]

/-- C3: the layout computation is a pure function — two runs on the same
tree and expansion set produce identical positioned nodes, edges and
bounding boxes — and the per-node height estimate depends only on the
node and its own expanded flag. -/
theorem layout_deterministic (E E1 E2 : Finset String) (m : GlobalMindMap)
    (n : MindMapNode) :
    convertMindMapToFlow E m = convertMindMapToFlow E m ∧
    translateExtent (convertMindMapToFlow E m).nodes
      = translateExtent (convertMindMapToFlow E m).nodes ∧
    ((n.id ∈ E1 ↔ n.id ∈ E2) →
      estimateSelfHeight E1 n = estimateSelfHeight E2 n) := by
  exact ⟨rfl, rfl, fun h => estimateSelfHeight_congr n h⟩

/-- C3 witness: instantiated on a one-node artifact and equal membership
on both sides. -/
theorem layout_deterministic_witness :
    ((("a" : String) ∈ (∅ : Finset String)) ↔ ("a" : String) ∈ (∅ : Finset String)) ∧
    (convertMindMapToFlow ∅ ⟨"u", "t", [bareLeaf "a"]⟩
        = convertMindMapToFlow ∅ ⟨"u", "t", [bareLeaf "a"]⟩ ∧
      translateExtent (convertMindMapToFlow ∅ ⟨"u", "t", [bareLeaf "a"]⟩).nodes
        = translateExtent (convertMindMapToFlow ∅ ⟨"u", "t", [bareLeaf "a"]⟩).nodes ∧
      ((("a" : String) ∈ (∅ : Finset String) ↔ ("a" : String) ∈ (∅ : Finset String)) →
        estimateSelfHeight ∅ (bareLeaf "a") = estimateSelfHeight ∅ (bareLeaf "a"))) :=
  ⟨Iff.rfl, layout_deterministic ∅ ∅ ∅ ⟨"u", "t", [bareLeaf "a"]⟩ (bareLeaf "a")⟩

/-- C9: expanding any node not currently expanded (in particular a leaf)
and then immediately collapsing it restores the expansion set and hence
the exact prior layout output (nodes, edges and bounding box). -/
theorem toggle_roundtrip (E : Finset String) (m : GlobalMindMap) (a : String)
    (_hleaf : ∃ n ∈ forestNodes m.roots, n.id = a ∧ n.children.isEmpty)
    (hnot : a ∉ E) :
    convertMindMapToFlow (toggleExpand a (toggleExpand a E)) m
        = convertMindMapToFlow E m ∧
      translateExtent
          (convertMindMapToFlow (toggleExpand a (toggleExpand a E)) m).nodes
        = translateExtent (convertMindMapToFlow E m).nodes := by
  have hset : toggleExpand a (toggleExpand a E) = E := by
    simp only [toggleExpand, hnot, if_false, if_neg hnot]
    rw [if_pos (Finset.mem_insert_self a E)]
    exact Finset.erase_insert hnot
  rw [hset]
  exact ⟨rfl, rfl⟩

/-- C9 witness: a single leaf root, expanded then collapsed. -/
theorem toggle_roundtrip_witness :
    ((∃ n ∈ forestNodes [bareLeaf "a"], n.id = "a" ∧ n.children.isEmpty) ∧
      ("a" : String) ∉ (∅ : Finset String)) ∧
    convertMindMapToFlow (toggleExpand "a" (toggleExpand "a" ∅))
        ⟨"u", "t", [bareLeaf "a"]⟩
      = convertMindMapToFlow ∅ ⟨"u", "t", [bareLeaf "a"]⟩ :=
  ⟨⟨by decide, by decide⟩,
    (toggle_roundtrip ∅ ⟨"u", "t", [bareLeaf "a"]⟩ "a" (by decide) (by decide)).1⟩

/-- C10: a node whose description is absent or empty always gets the
collapsed baseline height 72, expanded or not; hence toggling such a
node's id in or out of the expansion set changes no estimated height of
any node in the tree (assuming, as the data model guarantees, that no
other node reuses the id). -/
theorem blank_description_height (E : Finset String)
    (roots : List MindMapNode) (a : String)
    (hblank : ∀ n ∈ forestNodes roots, n.id = a → descText n = "") :
    (∀ n ∈ forestNodes roots, descText n = "" → estimateSelfHeight E n = 72) ∧
    (∀ n ∈ forestNodes roots,
      estimateSelfHeight (insert a E) n = estimateSelfHeight E n ∧
        estimateSelfHeight (E.erase a) n = estimateSelfHeight E n) := by
  constructor
  · intro n _ hd
    simp [estimateSelfHeight, hd]
  · intro n hn
    by_cases hid : n.id = a
    · have hd : descText n = "" := hblank n hn hid
      constructor <;> simp [estimateSelfHeight, hd]
    · constructor
      · exact estimateSelfHeight_congr n (by simp [Finset.mem_insert, hid])
      · exact estimateSelfHeight_congr n (by simp [Finset.mem_erase, hid])

/-- C10 witness: a two-node tree whose root has no description; toggling
the root's id is invisible to every estimated height. -/
theorem blank_description_height_witness :
    (∀ n ∈ forestNodes [MindMapNode.mk "R" "R" none [bareLeaf "A"]],
        n.id = "R" → descText n = "") ∧
    (∀ n ∈ forestNodes [MindMapNode.mk "R" "R" none [bareLeaf "A"]],
      estimateSelfHeight (insert "R" (∅ : Finset String)) n
          = estimateSelfHeight ∅ n ∧
        estimateSelfHeight ((∅ : Finset String).erase "R") n
          = estimateSelfHeight ∅ n) :=
  ⟨by decide,
    (blank_description_height ∅ [MindMapNode.mk "R" "R" none [bareLeaf "A"]]
      "R" (by decide)).2⟩

/-- C5: a push-channel event mutates at most the progress message and its
visibility — readiness status, map data and the expansion set are
untouched — while an applied poll settlement mutates at most readiness
status, map data (and the de-duplication ref / timer) — the progress
message, its visibility and the expansion set are untouched. -/
theorem channel_authority_frame (p : ProgressPayload)
    (res : Except Unit MindMapResponse) (s : CoordState) :
    ((onProgress p s).status = s.status ∧
      (onProgress p s).mapData = s.mapData ∧
      (onProgress p s).expanded = s.expanded) ∧
    ((pollSettle res s).message = s.message ∧
      (pollSettle res s).showMessage = s.showMessage ∧
      (pollSettle res s).expanded = s.expanded) := by
  constructor
  · unfold onProgress
    repeat' split
    all_goals simp_all
  · rcases res with e | r <;>
      unfold pollSettle reschedule <;>
      dsimp only <;>
      split_ifs <;>
      simp_all

theorem coordStep_stopped (e : CoordEvent) (s : CoordState)
    (h : coordStopped s) :
    coordStopped (coordStep e s) ∧ (coordStep e s).pollCount = s.pollCount := by
  obtain ⟨ha, ht⟩ := h
  cases e with
  | push p =>
    unfold coordStep onProgress
    repeat' split
    all_goals simp_all [coordStopped]
  | timerFire =>
    unfold coordStep fireTimer
    rw [ht]
    exact ⟨⟨ha, ht⟩, rfl⟩
  | settle res =>
    unfold coordStep pollSettle
    rw [ha]
    simp [coordStopped, ha, ht]
  | close =>
    unfold coordStep closeCoordinator
    simp [coordStopped]

theorem runCoord_stopped (es : List CoordEvent) (s : CoordState)
    (h : coordStopped s) :
    coordStopped (runCoord es s) ∧ (runCoord es s).pollCount = s.pollCount := by
  induction es generalizing s with
  | nil => exact ⟨h, rfl⟩
  | cons e rest ih =>
    have h1 := coordStep_stopped e s h
    have h2 := ih (coordStep e s) h1.1
    simp only [runCoord, List.foldl_cons] at *
    exact ⟨h2.1, h2.2.trans h1.2⟩

/-- C6: handling a `completed` push signal clears the polling flag and
the pending timer without issuing a final poll, and afterwards no event
trace can ever issue another poll request: the poll-request count is
frozen at its value at the moment of completion. -/
theorem completed_freezes_polling (p : ProgressPayload) (s : CoordState)
    (es : List CoordEvent) (hc : p.completed = some true) :
    (onProgress p s).pollCount = s.pollCount ∧
    coordStopped (onProgress p s) ∧
    (runCoord es (onProgress p s)).pollCount = s.pollCount := by
  have hstop : coordStopped (onProgress p s) ∧
      (onProgress p s).pollCount = s.pollCount := by
    unfold onProgress coordStopped
    rw [hc]
    cases p.message <;> simp
  have htrace := runCoord_stopped es (onProgress p s) hstop.1
  exact ⟨hstop.2, hstop.1, htrace.2.trans hstop.2⟩

/-- C6 witness: a concrete completion event followed by a later timer
fire, a late failed poll settlement and one more push event — the count
stays at its pre-completion value 3. -/
theorem completed_freezes_polling_witness :
    (ProgressPayload.mk (some "done") none none (some true)).completed
        = some true ∧
    ((onProgress ⟨some "done", none, none, some true⟩ sampleCoordState).pollCount
        = sampleCoordState.pollCount ∧
      coordStopped (onProgress ⟨some "done", none, none, some true⟩ sampleCoordState) ∧
      (runCoord [.timerFire, .settle (.error ()), .push ⟨some "late", none, none, none⟩]
          (onProgress ⟨some "done", none, none, some true⟩ sampleCoordState)).pollCount
        = sampleCoordState.pollCount) :=
  ⟨rfl, completed_freezes_polling ⟨some "done", none, none, some true⟩
    sampleCoordState
    [.timerFire, .settle (.error ()), .push ⟨some "late", none, none, none⟩]
    rfl⟩

/-- C7: a poll that settles after the coordinator has been stopped causes
zero state mutation — status, data, message, visibility, timer, poll
count, de-duplication ref and expansion set are all unchanged and no next
poll is scheduled (the whole state is unchanged except that the request
is no longer in flight). -/
theorem late_poll_is_discarded (res : Except Unit MindMapResponse)
    (s : CoordState) (h : s.active = false) :
    pollSettle res s = { s with inFlight := false } := by
  unfold pollSettle
  rw [h]
  rfl

/-- C7 witness: an inactive coordinator with a successful late response
carrying fresh data — the state is untouched apart from `inFlight`. -/
theorem late_poll_is_discarded_witness :
    ({ sampleCoordState with active := false, inFlight := true } : CoordState).active
        = false ∧
    pollSettle (.ok ⟨true, some true, "ready", some ⟨"u", "t", [bareLeaf "a"]⟩⟩)
        { sampleCoordState with active := false, inFlight := true }
      = { sampleCoordState with active := false, inFlight := false } :=
  ⟨rfl, late_poll_is_discarded
    (.ok ⟨true, some true, "ready", some ⟨"u", "t", [bareLeaf "a"]⟩⟩)
    { sampleCoordState with active := false, inFlight := true } rfl⟩

/-- C8: a failed poll is swallowed — no state field changes — and, the
coordinator still being active, the next poll is scheduled on the same
fixed 10000 ms interval, whatever the state (in particular whatever the
number of failures so far: no backoff, no retry cap). -/
theorem poll_failure_swallowed (s : CoordState) (h : s.active = true) :
    pollSettle (.error ()) s
      = { s with inFlight := false, timer := some 10000 } := by
  unfold pollSettle reschedule
  rw [h]
  simp

/-- C8 witness: a failure in the active sample state reschedules at
10000 ms and changes nothing else. -/
theorem poll_failure_swallowed_witness :
    sampleCoordState.active = true ∧
    pollSettle (.error ()) sampleCoordState
      = { sampleCoordState with inFlight := false, timer := some 10000 } :=
  ⟨rfl, poll_failure_swallowed sampleCoordState rfl⟩

theorem map_keyOf_of_id_level (f : PNode → PNode)
    (hf : ∀ p, (f p).id = p.id ∧ (f p).level = p.level) (ns : List PNode) :
    (ns.map f).map keyOf = ns.map keyOf := by
  rw [List.map_map]
  apply List.map_congr_left
  intro p _
  have h := hf p
  simp [keyOf, Function.comp, h.1, h.2]

theorem shiftIds_map_keyOf (s : List String) (dy : ℚ) (ns : List PNode) :
    (shiftIds s dy ns).map keyOf = ns.map keyOf := by
  unfold shiftIds
  apply map_keyOf_of_id_level
  intro p
  by_cases hp : p.id ∈ s <;> simp [hp]

theorem setYOf_map_keyOf (a : String) (v : ℚ) (ns : List PNode) :
    (setYOf a v ns).map keyOf = ns.map keyOf := by
  unfold setYOf
  apply map_keyOf_of_id_level
  intro p
  by_cases hp : p.id = a <;> simp [hp]

theorem find?_id_map (f : PNode → PNode) (hf : ∀ p, (f p).id = p.id)
    (ns : List PNode) (a : String) :
    (ns.map f).find? (fun p => p.id = a)
      = (ns.find? (fun p => p.id = a)).map f := by
  have hpred : ((fun p : PNode => decide (p.id = a)) ∘ f)
      = (fun p : PNode => decide (p.id = a)) := by
    funext q
    simp [Function.comp, hf q]
  rw [List.find?_map, hpred]

theorem find?_isSome_of_mem_ids (ns : List PNode) (a : String)
    (h : a ∈ ns.map (·.id)) : (ns.find? (fun p => p.id = a)).isSome := by
  rw [List.find?_isSome]
  obtain ⟨p, hp, hid⟩ := List.mem_map.mp h
  exact ⟨p, hp, by simp [hid]⟩

theorem yOf_shiftIds_of_mem (s : List String) (dy : ℚ) (ns : List PNode)
    (a : String) (hmem : a ∈ ns.map (·.id)) (has : a ∈ s) :
    yOf (shiftIds s dy ns) a = yOf ns a + dy := by
  have hf : ∀ p : PNode,
      ((fun p => if p.id ∈ s then { p with y := p.y + dy } else p) p).id
        = p.id := by
    intro p
    by_cases hp : p.id ∈ s <;> simp [hp]
  unfold yOf shiftIds
  rw [find?_id_map _ hf]
  have hsome := find?_isSome_of_mem_ids ns a hmem
  obtain ⟨p, hp⟩ := Option.isSome_iff_exists.mp hsome
  rw [hp]
  have hid : p.id = a := by
    have := List.find?_some hp
    simpa using this
  simp [hid, has]

theorem yOf_shiftIds_of_not_mem (s : List String) (dy : ℚ) (ns : List PNode)
    (a : String) (has : a ∉ s) :
    yOf (shiftIds s dy ns) a = yOf ns a := by
  have hf : ∀ p : PNode,
      ((fun p => if p.id ∈ s then { p with y := p.y + dy } else p) p).id
        = p.id := by
    intro p
    by_cases hp : p.id ∈ s <;> simp [hp]
  unfold yOf shiftIds
  rw [find?_id_map _ hf]
  cases hfind : ns.find? (fun p => p.id = a) with
  | none => rfl
  | some p =>
    have hid : p.id = a := by
      have := List.find?_some hfind
      simpa using this
    have hps : p.id ∉ s := by rw [hid]; exact has
    simp [hps]

theorem yOf_setYOf_self (a : String) (v : ℚ) (ns : List PNode)
    (hmem : a ∈ ns.map (·.id)) : yOf (setYOf a v ns) a = v := by
  have hf : ∀ p : PNode,
      ((fun p => if p.id = a then { p with y := v } else p) p).id = p.id := by
    intro p
    by_cases hp : p.id = a <;> simp [hp]
  unfold yOf setYOf
  rw [find?_id_map _ hf]
  have hsome := find?_isSome_of_mem_ids ns a hmem
  obtain ⟨p, hp⟩ := Option.isSome_iff_exists.mp hsome
  rw [hp]
  have hid : p.id = a := by
    have := List.find?_some hp
    simpa using this
  simp [hid]

theorem yOf_setYOf_of_ne (a : String) (v : ℚ) (ns : List PNode) (b : String)
    (hab : b ≠ a) : yOf (setYOf a v ns) b = yOf ns b := by
  have hf : ∀ p : PNode,
      ((fun p => if p.id = a then { p with y := v } else p) p).id = p.id := by
    intro p
    by_cases hp : p.id = a <;> simp [hp]
  unfold yOf setYOf
  rw [find?_id_map _ hf]
  cases hfind : ns.find? (fun p => p.id = b) with
  | none => rfl
  | some p =>
    have hid : p.id = b := by
      have := List.find?_some hfind
      simpa using this
    have hps : ¬ p.id = a := by rw [hid]; exact hab
    simp [hps]

theorem idsAtLevel_eq_keys (ns : List PNode) (lvl : ℕ) :
    idsAtLevel ns lvl
      = ((ns.map keyOf).filter (fun k => k.2 = lvl)).map Prod.fst := by
  induction ns with
  | nil => simp [idsAtLevel]
  | cons p rest ih =>
    unfold idsAtLevel at *
    by_cases hp : p.level = lvl <;>
      simp [keyOf, hp, List.filter_cons, ih]

theorem ids_eq_keys_fst (ns : List PNode) :
    ns.map (·.id) = (ns.map keyOf).map Prod.fst := by
  rw [List.map_map]
  rfl

theorem yOf_eq_of_mem_nodup (ns : List PNode) (p : PNode)
    (hnd : (ns.map (·.id)).Nodup) (hp : p ∈ ns) : yOf ns p.id = p.y := by
  induction ns with
  | nil => cases hp
  | cons q rest ih =>
    rcases List.mem_cons.mp hp with hq | hq
    · subst hq
      simp [yOf, List.find?_cons]
    · have hnd' := hnd
      rw [List.map_cons, List.nodup_cons] at hnd'
      have hne : q.id ≠ p.id := by
        intro he
        exact hnd'.1 (he ▸ List.mem_map_of_mem (·.id) hq)
      unfold yOf
      rw [List.find?_cons_of_neg _ (by simp [hne])]
      exact ih hnd'.2 hq

mutual
theorem idLvls_map_fst (d : ℕ) (roots : List MindMapNode) :
    (idLvls d roots).map Prod.fst = forestIds roots := by
  cases roots with
  | nil => simp [idLvls, forestIds, forestNodes]
  | cons n rest =>
    have h1 := nodeLvls_map_fst d n
    have h2 := idLvls_map_fst d rest
    simp only [idLvls, forestIds, forestNodes, List.map_append]
    rw [h1, h2, forestIds]

theorem nodeLvls_map_fst (d : ℕ) (n : MindMapNode) :
    (nodeLvls d n).map Prod.fst = (nodeSubtree n).map (·.id) := by
  cases n with
  | mk i t dd cs =>
    have h := idLvls_map_fst (d + 1) cs
    simp only [nodeLvls, nodeSubtree, List.map_cons]
    rw [h, forestIds]
    rfl
end

mutual
theorem idLvls_depth_le (d : ℕ) (roots : List MindMapNode) :
    ∀ x dx, (x, dx) ∈ idLvls d roots → d ≤ dx := by
  cases roots with
  | nil => intro x dx h; simp [idLvls] at h
  | cons n rest =>
    intro x dx h
    simp only [idLvls, List.mem_append] at h
    rcases h with h | h
    · exact nodeLvls_depth_le d n x dx h
    · exact idLvls_depth_le d rest x dx h

theorem nodeLvls_depth_le (d : ℕ) (n : MindMapNode) :
    ∀ x dx, (x, dx) ∈ nodeLvls d n → d ≤ dx := by
  cases n with
  | mk i t dd cs =>
    intro x dx h
    simp only [nodeLvls, List.mem_cons, Prod.mk.injEq] at h
    rcases h with ⟨_, h2⟩ | h
    · omega
    · have := idLvls_depth_le (d + 1) cs x dx h
      omega
end

mutual
theorem findNode?_id (roots : List MindMapNode) (a : String) (m : MindMapNode)
    (h : findNode? roots a = some m) : m.id = a := by
  cases roots with
  | nil => simp [findNode?] at h
  | cons n rest =>
    rw [findNode?] at h
    cases hfi : findInNode? n a with
    | some mm =>
      rw [hfi] at h
      have hmm : mm = m := by injection h
      subst hmm
      exact findInNode?_id n a mm hfi
    | none =>
      rw [hfi] at h
      exact findNode?_id rest a m h

theorem findInNode?_id (n : MindMapNode) (a : String) (m : MindMapNode)
    (h : findInNode? n a = some m) : m.id = a := by
  cases n with
  | mk i t dd cs =>
    rw [findInNode?] at h
    by_cases hi : i = a
    · rw [if_pos hi] at h
      cases h
      simpa [MindMapNode.id] using hi
    · rw [if_neg hi] at h
      exact findNode?_id cs a m h
end

mutual
theorem findNode?_of_mem (roots : List MindMapNode) (a : String)
    (h : a ∈ forestIds roots) :
    ∃ m, findNode? roots a = some m ∧ m.id = a := by
  cases roots with
  | nil => simp [forestIds, forestNodes] at h
  | cons n rest =>
    rw [forestIds, forestNodes, List.map_append, List.mem_append] at h
    rcases h with h | h
    · obtain ⟨m, hm, hid⟩ := findInNode?_of_mem n a h
      exact ⟨m, by rw [findNode?]; simp [hm], hid⟩
    · obtain ⟨m, hm, hid⟩ := findNode?_of_mem rest a h
      cases hfi : findInNode? n a with
      | some mm =>
        exact ⟨mm, by rw [findNode?]; simp [hfi], findInNode?_id n a mm hfi⟩
      | none => exact ⟨m, by rw [findNode?]; simp [hfi, hm], hid⟩

theorem findInNode?_of_mem (n : MindMapNode) (a : String)
    (h : a ∈ (nodeSubtree n).map (·.id)) :
    ∃ m, findInNode? n a = some m ∧ m.id = a := by
  cases n with
  | mk i t dd cs =>
    rw [nodeSubtree, List.map_cons, List.mem_cons] at h
    by_cases hi : i = a
    · refine ⟨.mk i t dd cs, by rw [findInNode?]; simp [hi], ?_⟩
      simpa [MindMapNode.id] using hi
    · have h2 : a ∈ forestIds cs := by
        rcases h with h | h
        · exact absurd h.symm (by simpa [MindMapNode.id] using hi)
        · exact h
      obtain ⟨m, hm, hid⟩ := findNode?_of_mem cs a h2
      exact ⟨m, by rw [findInNode?]; simp [hi, hm], hid⟩
end

mutual
theorem findNode?_lvls (roots : List MindMapNode) (a : String)
    (m : MindMapNode) (h : findNode? roots a = some m) :
    ∀ d, ∃ da, d ≤ da ∧ (a, da) ∈ idLvls d roots ∧
      ∀ pr ∈ nodeLvls da m, pr ∈ idLvls d roots := by
  cases roots with
  | nil => simp [findNode?] at h
  | cons n rest =>
    intro d
    rw [findNode?] at h
    cases hfi : findInNode? n a with
    | some mm =>
      rw [hfi] at h
      have hmm : mm = m := by injection h
      subst hmm
      obtain ⟨da, hle, hmem, hemb⟩ := findInNode?_lvls n a mm hfi d
      refine ⟨da, hle, ?_, ?_⟩
      · rw [idLvls]
        exact List.mem_append_left _ hmem
      · intro pr hpr
        rw [idLvls]
        exact List.mem_append_left _ (hemb pr hpr)
    | none =>
      rw [hfi] at h
      obtain ⟨da, hle, hmem, hemb⟩ := findNode?_lvls rest a m h d
      refine ⟨da, hle, ?_, ?_⟩
      · rw [idLvls]
        exact List.mem_append_right _ hmem
      · intro pr hpr
        rw [idLvls]
        exact List.mem_append_right _ (hemb pr hpr)

theorem findInNode?_lvls (n : MindMapNode) (a : String) (m : MindMapNode)
    (h : findInNode? n a = some m) :
    ∀ d, ∃ da, d ≤ da ∧ (a, da) ∈ nodeLvls d n ∧
      ∀ pr ∈ nodeLvls da m, pr ∈ nodeLvls d n := by
  cases n with
  | mk i t dd cs =>
    intro d
    rw [findInNode?] at h
    by_cases hi : i = a
    · rw [if_pos hi] at h
      cases h
      refine ⟨d, le_refl d, ?_, fun pr hpr => hpr⟩
      rw [nodeLvls, hi]
      exact List.mem_cons_self _ _
    · rw [if_neg hi] at h
      obtain ⟨da, hle, hmem, hemb⟩ := findNode?_lvls cs a m h (d + 1)
      refine ⟨da, by omega, ?_, ?_⟩
      · rw [nodeLvls]
        exact List.mem_cons_of_mem _ hmem
      · intro pr hpr
        rw [nodeLvls]
        exact List.mem_cons_of_mem _ (hemb pr hpr)
end

theorem depth_unique (l : List (String × ℕ)) (hnd : (l.map Prod.fst).Nodup)
    (a : String) (d1 d2 : ℕ) (h1 : (a, d1) ∈ l) (h2 : (a, d2) ∈ l) :
    d1 = d2 := by
  induction l with
  | nil => cases h1
  | cons p rest ih =>
    rw [List.map_cons, List.nodup_cons] at hnd
    rcases List.mem_cons.mp h1 with e1 | m1 <;>
      rcases List.mem_cons.mp h2 with e2 | m2
    · rw [← e2] at e1
      exact congrArg Prod.snd e1
    · exfalso
      apply hnd.1
      rw [← e1]
      show a ∈ List.map Prod.fst rest
      exact List.mem_map_of_mem Prod.fst m2
    · exfalso
      apply hnd.1
      rw [← e2]
      show a ∈ List.map Prod.fst rest
      exact List.mem_map_of_mem Prod.fst m1
    · exact ih hnd.2 m1 m2

theorem child_pair_mem (d : ℕ) (cs : List MindMapNode) (c : MindMapNode)
    (hc : c ∈ cs) : (c.id, d) ∈ idLvls d cs := by
  induction cs with
  | nil => cases hc
  | cons n rest ih =>
    rw [idLvls]
    rcases List.mem_cons.mp hc with e | m
    · subst e
      apply List.mem_append_left
      cases c with
      | mk i t dd cc =>
        rw [nodeLvls]
        exact List.mem_cons_self _ _
    · exact List.mem_append_right _ (ih m)

theorem nodeSubtree_eq (n : MindMapNode) :
    nodeSubtree n = n :: forestNodes n.children := by
  cases n
  rfl

theorem nodeLvls_eq (d : ℕ) (n : MindMapNode) :
    nodeLvls d n = (n.id, d) :: idLvls (d + 1) n.children := by
  cases n
  rfl

theorem subtreeIds_eq_of_find (roots : List MindMapNode) (a : String)
    (m : MindMapNode) (h : findNode? roots a = some m) :
    subtreeIds roots a = (nodeSubtree m).map (·.id) := by
  rw [subtreeIds, h]

theorem subtreeIds_eq_nil (roots : List MindMapNode) (a : String)
    (h : findNode? roots a = none) : subtreeIds roots a = [] := by
  rw [subtreeIds, h]

theorem pair_mem_forestIds (roots : List MindMapNode) (a : String) (da : ℕ)
    (h : (a, da) ∈ idLvls 0 roots) : a ∈ forestIds roots := by
  rw [← idLvls_map_fst 0]
  show (a, da).1 ∈ _
  exact List.mem_map_of_mem Prod.fst h

theorem forestIds_pair (roots : List MindMapNode) (a : String)
    (h : a ∈ forestIds roots) : ∃ da, (a, da) ∈ idLvls 0 roots := by
  rw [← idLvls_map_fst 0] at h
  obtain ⟨pr, hpr, he⟩ := List.mem_map.mp h
  refine ⟨pr.2, ?_⟩
  have he2 : (a, pr.2) = pr := by
    rw [← he]
  rw [he2]
  exact hpr

theorem idLvls_fst_nodup (roots : List MindMapNode)
    (hnd : (forestIds roots).Nodup) :
    ((idLvls 0 roots).map Prod.fst).Nodup := by
  rw [idLvls_map_fst]
  exact hnd

theorem self_mem_subtreeIds (roots : List MindMapNode) (a : String)
    (h : a ∈ forestIds roots) : a ∈ subtreeIds roots a := by
  obtain ⟨m, hm, hid⟩ := findNode?_of_mem roots a h
  rw [subtreeIds_eq_of_find roots a m hm, nodeSubtree_eq, List.map_cons]
  exact List.mem_cons.mpr (Or.inl hid.symm)

theorem subtree_pair (roots : List MindMapNode) (a x : String) (da : ℕ)
    (hnd : (forestIds roots).Nodup) (ha : (a, da) ∈ idLvls 0 roots)
    (hx : x ∈ subtreeIds roots a) :
    ∃ dx, da ≤ dx ∧ (x, dx) ∈ idLvls 0 roots := by
  cases hm : findNode? roots a with
  | none =>
    rw [subtreeIds_eq_nil roots a hm] at hx
    cases hx
  | some m =>
    rw [subtreeIds_eq_of_find roots a m hm] at hx
    obtain ⟨da2, _, hmem, hemb⟩ := findNode?_lvls roots a m hm 0
    have heq : da2 = da :=
      depth_unique _ (idLvls_fst_nodup roots hnd) a da2 da hmem ha
    subst heq
    rw [← nodeLvls_map_fst da2 m] at hx
    obtain ⟨pr, hpr, he⟩ := List.mem_map.mp hx
    have hpr2 : (x, pr.2) ∈ nodeLvls da2 m := by
      have he2 : (x, pr.2) = pr := by rw [← he]
      rw [he2]
      exact hpr
    refine ⟨pr.2, nodeLvls_depth_le da2 m x pr.2 hpr2, hemb _ hpr2⟩

theorem not_mem_subtree_same_lvl (roots : List MindMapNode) (a b : String)
    (L : ℕ) (hnd : (forestIds roots).Nodup) (ha : (a, L) ∈ idLvls 0 roots)
    (hb : (b, L) ∈ idLvls 0 roots) (hab : b ≠ a) :
    b ∉ subtreeIds roots a := by
  intro hx
  cases hm : findNode? roots a with
  | none =>
    rw [subtreeIds_eq_nil roots a hm] at hx
    cases hx
  | some m =>
    rw [subtreeIds_eq_of_find roots a m hm] at hx
    obtain ⟨da2, _, hmem, hemb⟩ := findNode?_lvls roots a m hm 0
    have heq : da2 = L :=
      depth_unique _ (idLvls_fst_nodup roots hnd) a da2 L hmem ha
    subst heq
    rw [← nodeLvls_map_fst da2 m] at hx
    obtain ⟨pr, hpr, he⟩ := List.mem_map.mp hx
    have hpr2 : (b, pr.2) ∈ nodeLvls da2 m := by
      have he2 : (b, pr.2) = pr := by rw [← he]
      rw [he2]
      exact hpr
    have hid := findNode?_id roots a m hm
    rw [nodeLvls_eq] at hpr2
    rcases List.mem_cons.mp hpr2 with hh | ht
    · exact hab ((congrArg Prod.fst hh).trans hid)
    · have hge := idLvls_depth_le (da2 + 1) m.children b pr.2 ht
      have hmem2 : (b, pr.2) ∈ idLvls 0 roots := by
        apply hemb
        rw [nodeLvls_eq]
        exact List.mem_cons_of_mem _ ht
      have hl : pr.2 = da2 :=
        depth_unique _ (idLvls_fst_nodup roots hnd) b pr.2 da2 hmem2 hb
      omega

mutual
theorem placeNode_keys (E : Finset String) (n : MindMapNode)
    (parent : Option String) (level : ℕ) (aY aH : ℚ) :
    (placeNode E n parent level aY aH).1.map keyOf = nodeLvls level n := by
  cases n with
  | mk i t dd cs =>
    have h := placeChildren_keys E cs i (level + 1) aY
    simp only [placeNode, List.map_cons, nodeLvls]
    rw [h]
    rfl

theorem placeChildren_keys (E : Finset String) (cs : List MindMapNode)
    (pid : String) (level : ℕ) (childY : ℚ) :
    (placeChildren E cs pid level childY).1.map keyOf = idLvls level cs := by
  cases cs with
  | nil => simp [placeChildren, idLvls]
  | cons c rest =>
    have h1 := placeNode_keys E c (some pid) level childY ((calcHeight E c : ℕ) : ℚ)
    have h2 := placeChildren_keys E rest pid level (childY + ((calcHeight E c : ℕ) : ℚ))
    simp only [placeChildren, List.map_append, idLvls]
    rw [h1, h2]
end

theorem placeRoots_keys (E : Finset String) (roots : List MindMapNode)
    (y0 : ℚ) : (placeRoots E roots y0).1.map keyOf = idLvls 0 roots := by
  induction roots generalizing y0 with
  | nil => simp [placeRoots, idLvls]
  | cons r rest ih =>
    simp only [placeRoots, List.map_append, idLvls]
    rw [placeNode_keys, ih]

theorem heightOf_pos (roots : List MindMapNode) (E : Finset String)
    (a : String) : 0 < heightOf roots E a := by
  cases hm : findNode? roots a with
  | none => simp [heightOf, hm]
  | some m =>
    simp only [heightOf, hm]
    have h1 : (100 : ℕ) ≤ max 100 (estimateSelfHeight E m) := Nat.le_max_left _ _
    have h2 : (0 : ℕ) < max 100 (estimateSelfHeight E m) := by omega
    exact_mod_cast h2

theorem collideGo_map_keyOf (roots : List MindMapNode) (E : Finset String) :
    ∀ (ids : List String) (pb : Option ℚ) (ns : List PNode),
    (collideGo roots E ids pb ns).map keyOf = ns.map keyOf := by
  intro ids
  induction ids with
  | nil => intro pb ns; rfl
  | cons a rest ih =>
    intro pb ns
    rw [collideGo.eq_def]
    cases pb with
    | none => exact ih _ ns
    | some b0 =>
      dsimp only
      split
      · rw [ih _ _, shiftIds_map_keyOf]
      · exact ih _ ns

theorem collideGo_ids (roots : List MindMapNode) (E : Finset String)
    (ids : List String) (pb : Option ℚ) (ns : List PNode) :
    (collideGo roots E ids pb ns).map (·.id) = ns.map (·.id) := by
  rw [ids_eq_keys_fst, ids_eq_keys_fst, collideGo_map_keyOf]

theorem collideGo_yOf_preserved (roots : List MindMapNode) (E : Finset String)
    (x : String) :
    ∀ (ids : List String), (∀ a ∈ ids, x ∉ subtreeIds roots a) →
    ∀ (pb : Option ℚ) (ns : List PNode),
    yOf (collideGo roots E ids pb ns) x = yOf ns x := by
  intro ids
  induction ids with
  | nil => intro _ pb ns; rfl
  | cons a rest ih =>
    intro hx pb ns
    have hxa : x ∉ subtreeIds roots a := hx a (List.mem_cons_self _ _)
    have hxr : ∀ b ∈ rest, x ∉ subtreeIds roots b :=
      fun b hb => hx b (List.mem_cons_of_mem _ hb)
    rw [collideGo.eq_def]
    cases pb with
    | none => exact ih hxr _ ns
    | some b0 =>
      dsimp only
      split
      · rw [ih hxr _ _, yOf_shiftIds_of_not_mem _ _ _ _ hxa]
      · exact ih hxr _ ns

theorem collideGo_chain (roots : List MindMapNode) (E : Finset String) :
    ∀ (ids : List String) (pb : Option ℚ) (ns : List PNode),
    (∀ a ∈ ids, a ∈ ns.map (·.id)) →
    (∀ a ∈ ids, a ∈ subtreeIds roots a) →
    List.Pairwise (fun a b => a ∉ subtreeIds roots b) ids →
    chainOK (heightOf roots E) (yOf (collideGo roots E ids pb ns)) ids pb := by
  intro ids
  induction ids with
  | nil => intro pb ns _ _ _; trivial
  | cons a rest ih =>
    intro pb ns hmem hself hpw
    have hpw1 : ∀ b ∈ rest, a ∉ subtreeIds roots b :=
      fun b hb => (List.pairwise_cons.mp hpw).1 b hb
    have hpw2 : List.Pairwise (fun a b => a ∉ subtreeIds roots b) rest :=
      (List.pairwise_cons.mp hpw).2
    have hmemr : ∀ b ∈ rest, b ∈ ns.map (·.id) :=
      fun b hb => hmem b (List.mem_cons_of_mem _ hb)
    have hselfr : ∀ b ∈ rest, b ∈ subtreeIds roots b :=
      fun b hb => hself b (List.mem_cons_of_mem _ hb)
    rw [collideGo.eq_def, chainOK.eq_def]
    cases pb with
    | none =>
      dsimp only
      have hya : yOf (collideGo roots E rest
          (some (yOf ns a - heightOf roots E a / 2 + heightOf roots E a)) ns) a
          = yOf ns a :=
        collideGo_yOf_preserved roots E a rest hpw1 _ ns
      constructor
      · intro b hb
        cases hb
      · have hchain := ih (some (yOf ns a - heightOf roots E a / 2
            + heightOf roots E a)) ns hmemr hselfr hpw2
        have heq : yOf ns a - heightOf roots E a / 2 + heightOf roots E a
            = yOf (collideGo roots E rest
              (some (yOf ns a - heightOf roots E a / 2 + heightOf roots E a)) ns) a
              + heightOf roots E a / 2 := by
          rw [hya]
          ring
        rw [← heq]
        exact hchain
    | some b0 =>
      dsimp only
      split
      · rename_i hlt
        set dy := b0 + 52 - (yOf ns a - heightOf roots E a / 2) with hdy
        set ns1 := shiftIds (subtreeIds roots a) dy ns with hns1
        have hids1 : ns1.map (·.id) = ns.map (·.id) := by
          rw [hns1, ids_eq_keys_fst, ids_eq_keys_fst, shiftIds_map_keyOf]
        have hmem1 : ∀ b ∈ rest, b ∈ ns1.map (·.id) := by
          intro b hb
          rw [hids1]
          exact hmemr b hb
        have hya1 : yOf ns1 a = yOf ns a + dy := by
          rw [hns1]
          exact yOf_shiftIds_of_mem _ _ _ _ (hmem a (List.mem_cons_self _ _))
            (hself a (List.mem_cons_self _ _))
        have hya : yOf (collideGo roots E rest
            (some (b0 + 52 + heightOf roots E a)) ns1) a = yOf ns1 a :=
          collideGo_yOf_preserved roots E a rest hpw1 _ ns1
        constructor
        · intro b hb
          injection hb with hb0
          subst hb0
          rw [hya, hya1, hdy]
          ring_nf
          linarith [heightOf_pos roots E a]
        · have hchain := ih (some (b0 + 52 + heightOf roots E a)) ns1
            hmem1 hselfr hpw2
          have heq : b0 + 52 + heightOf roots E a
              = yOf (collideGo roots E rest
                (some (b0 + 52 + heightOf roots E a)) ns1) a
                + heightOf roots E a / 2 := by
            rw [hya, hya1, hdy]
            ring
          rw [← heq]
          exact hchain
      · rename_i hge
        push_neg at hge
        have hya : yOf (collideGo roots E rest
            (some (yOf ns a - heightOf roots E a / 2 + heightOf roots E a)) ns) a
            = yOf ns a :=
          collideGo_yOf_preserved roots E a rest hpw1 _ ns
        constructor
        · intro b hb
          injection hb with hb0
          subst hb0
          rw [hya]
          linarith
        · have hchain := ih (some (yOf ns a - heightOf roots E a / 2
              + heightOf roots E a)) ns hmemr hselfr hpw2
          have heq : yOf ns a - heightOf roots E a / 2 + heightOf roots E a
              = yOf (collideGo roots E rest
                (some (yOf ns a - heightOf roots E a / 2 + heightOf roots E a)) ns) a
                + heightOf roots E a / 2 := by
            rw [hya]
            ring
          rw [← heq]
          exact hchain

theorem chainOK_le (h yF : String → ℚ) (hpos : ∀ a, 0 < h a) :
    ∀ (ids : List String) (b0 : ℚ), chainOK h yF ids (some b0) →
    ∀ x ∈ ids, b0 + 52 ≤ yF x - h x / 2 := by
  intro ids
  induction ids with
  | nil => intro b0 _ x hx; cases hx
  | cons a rest ih =>
    intro b0 hc x hx
    rw [chainOK.eq_def] at hc
    obtain ⟨h1, h2⟩ := hc
    rcases List.mem_cons.mp hx with he | hm
    · subst he
      exact h1 b0 rfl
    · have hstep := ih (yF a + h a / 2) h2 x hm
      have ha := h1 b0 rfl
      have := hpos a
      linarith

theorem chainOK_pairwise (h yF : String → ℚ) (hpos : ∀ a, 0 < h a) :
    ∀ (ids : List String) (pb : Option ℚ), chainOK h yF ids pb →
    List.Pairwise (fun a b => yF a + h a / 2 + 52 ≤ yF b - h b / 2) ids := by
  intro ids
  induction ids with
  | nil => intro pb _; exact List.Pairwise.nil
  | cons a rest ih =>
    intro pb hc
    rw [chainOK.eq_def] at hc
    obtain ⟨_, h2⟩ := hc
    exact List.Pairwise.cons
      (fun b hb => chainOK_le h yF hpos rest (yF a + h a / 2) h2 b hb)
      (ih _ h2)

theorem idsAtLevel_congr (ns ns2 : List PNode)
    (h : ns.map keyOf = ns2.map keyOf) (l : ℕ) :
    idsAtLevel ns l = idsAtLevel ns2 l := by
  rw [idsAtLevel_eq_keys, idsAtLevel_eq_keys, h]

theorem mem_idsAtLevel_key (ns : List PNode) (a : String) (L : ℕ) :
    a ∈ idsAtLevel ns L ↔ (a, L) ∈ ns.map keyOf := by
  rw [idsAtLevel_eq_keys]
  constructor
  · intro h
    obtain ⟨k, hk, he⟩ := List.mem_map.mp h
    have hk2 := List.mem_filter.mp hk
    have hL : k.2 = L := by simpa using hk2.2
    have hke : k = (a, L) := by
      cases k
      simp only [Prod.mk.injEq]
      exact ⟨he, hL⟩
    rw [← hke]
    exact hk2.1
  · intro h
    show (a, L).1 ∈ _
    apply List.mem_map_of_mem
    rw [List.mem_filter]
    exact ⟨h, by simp⟩

theorem idsAtLevel_nodup (ns : List PNode) (hnd : (ns.map (·.id)).Nodup)
    (L : ℕ) : (idsAtLevel ns L).Nodup := by
  apply List.Nodup.sublist _ hnd
  unfold idsAtLevel
  exact List.Sublist.map _ (List.filter_sublist ns)

theorem collideLevel_map_keyOf (roots : List MindMapNode) (E : Finset String)
    (lids : List String) (ns : List PNode) :
    (collideLevel roots E lids ns).map keyOf = ns.map keyOf := by
  unfold collideLevel
  exact collideGo_map_keyOf roots E _ none ns

theorem collideLevel_sep (roots : List MindMapNode) (E : Finset String)
    (L : ℕ) (ns : List PNode) (hnd : (forestIds roots).Nodup)
    (hk : ns.map keyOf = idLvls 0 roots) :
    ∀ a b, a ≠ b → (a, L) ∈ idLvls 0 roots → (b, L) ∈ idLvls 0 roots →
    (yOf (collideLevel roots E (idsAtLevel ns L) ns) a
        + heightOf roots E a / 2 + 52
      ≤ yOf (collideLevel roots E (idsAtLevel ns L) ns) b
        - heightOf roots E b / 2) ∨
    (yOf (collideLevel roots E (idsAtLevel ns L) ns) b
        + heightOf roots E b / 2 + 52
      ≤ yOf (collideLevel roots E (idsAtLevel ns L) ns) a
        - heightOf roots E a / 2) := by
  intro a b hab ha hb
  have hperm := List.perm_insertionSort
    (fun c d => yOf ns c ≤ yOf ns d) (idsAtLevel ns L)
  set sorted := List.insertionSort
    (fun c d => yOf ns c ≤ yOf ns d) (idsAtLevel ns L) with hsorted
  have hmemKL : ∀ c ∈ sorted, (c, L) ∈ idLvls 0 roots := by
    intro c hc
    have : c ∈ idsAtLevel ns L := hperm.mem_iff.mp hc
    rw [mem_idsAtLevel_key, hk] at this
    exact this
  have hforest : ∀ c ∈ sorted, c ∈ forestIds roots :=
    fun c hc => pair_mem_forestIds roots c L (hmemKL c hc)
  have hself : ∀ c ∈ sorted, c ∈ subtreeIds roots c :=
    fun c hc => self_mem_subtreeIds roots c (hforest c hc)
  have hmemids : ∀ c ∈ sorted, c ∈ ns.map (·.id) := by
    intro c hc
    rw [ids_eq_keys_fst, hk]
    show (c, L).1 ∈ _
    exact List.mem_map_of_mem Prod.fst (hmemKL c hc)
  have hndids : (ns.map (·.id)).Nodup := by
    rw [ids_eq_keys_fst, hk, idLvls_map_fst]
    exact hnd
  have hndsorted : sorted.Nodup :=
    hperm.nodup_iff.mpr (idsAtLevel_nodup ns hndids L)
  have hpw : List.Pairwise (fun c d => c ∉ subtreeIds roots d) sorted := by
    apply List.Pairwise.imp_of_mem _ hndsorted
    intro c d hc hd hne
    exact not_mem_subtree_same_lvl roots d c L hnd (hmemKL d hd) (hmemKL c hc)
      hne
  have hchain := collideGo_chain roots E sorted none ns hmemids hself hpw
  have hpair := chainOK_pairwise (heightOf roots E)
    (yOf (collideGo roots E sorted none ns)) (heightOf_pos roots E) sorted
    none hchain
  have hsym : List.Pairwise (fun c d =>
      (yOf (collideGo roots E sorted none ns) c + heightOf roots E c / 2 + 52
        ≤ yOf (collideGo roots E sorted none ns) d - heightOf roots E d / 2) ∨
      (yOf (collideGo roots E sorted none ns) d + heightOf roots E d / 2 + 52
        ≤ yOf (collideGo roots E sorted none ns) c - heightOf roots E c / 2))
      sorted :=
    hpair.imp (fun h => Or.inl h)
  have hsymm : Symmetric (fun c d =>
      (yOf (collideGo roots E sorted none ns) c + heightOf roots E c / 2 + 52
        ≤ yOf (collideGo roots E sorted none ns) d - heightOf roots E d / 2) ∨
      (yOf (collideGo roots E sorted none ns) d + heightOf roots E d / 2 + 52
        ≤ yOf (collideGo roots E sorted none ns) c - heightOf roots E c / 2)) := by
    intro c d h
    rcases h with h | h
    · exact Or.inr h
    · exact Or.inl h
  have hamem : a ∈ sorted := by
    rw [hperm.mem_iff, mem_idsAtLevel_key, hk]
    exact ha
  have hbmem : b ∈ sorted := by
    rw [hperm.mem_iff, mem_idsAtLevel_key, hk]
    exact hb
  exact hsym.forall hsymm hamem hbmem hab

theorem collideLevel_yOf_low (roots : List MindMapNode) (E : Finset String)
    (Lp : ℕ) (ns : List PNode) (x : String) (Lx : ℕ)
    (hnd : (forestIds roots).Nodup) (hk : ns.map keyOf = idLvls 0 roots)
    (hxL : (x, Lx) ∈ idLvls 0 roots) (hlt : Lx < Lp) :
    yOf (collideLevel roots E (idsAtLevel ns Lp) ns) x = yOf ns x := by
  unfold collideLevel
  apply collideGo_yOf_preserved
  intro a ha hmem
  have hperm := List.perm_insertionSort
    (fun c d => yOf ns c ≤ yOf ns d) (idsAtLevel ns Lp)
  have haL : (a, Lp) ∈ idLvls 0 roots := by
    have : a ∈ idsAtLevel ns Lp := hperm.mem_iff.mp ha
    rw [mem_idsAtLevel_key, hk] at this
    exact this
  obtain ⟨dx, hge, hpair⟩ := subtree_pair roots a x Lp hnd haL hmem
  have heq := depth_unique _ (idLvls_fst_nodup roots hnd) x dx Lx hpair hxL
  omega

theorem runPass_map_keyOf (roots : List MindMapNode) (E : Finset String)
    (lvlIds : ℕ → List String) :
    ∀ (levels : List ℕ) (ns : List PNode),
    (runCollisionPass roots E levels lvlIds ns).map keyOf = ns.map keyOf := by
  intro levels
  induction levels with
  | nil => intro ns; rfl
  | cons l rest ih =>
    intro ns
    unfold runCollisionPass at *
    rw [List.foldl_cons, ih, collideLevel_map_keyOf]

theorem runPass_yOf_low (roots : List MindMapNode) (E : Finset String)
    (lvlIds : ℕ → List String) (hnd : (forestIds roots).Nodup)
    (x : String) (Lx : ℕ) (hxL : (x, Lx) ∈ idLvls 0 roots) :
    ∀ (levels : List ℕ) (ns : List PNode),
    ns.map keyOf = idLvls 0 roots →
    (∀ l, lvlIds l = idsAtLevel ns l) →
    (∀ l ∈ levels, Lx < l) →
    yOf (runCollisionPass roots E levels lvlIds ns) x = yOf ns x := by
  intro levels
  induction levels with
  | nil => intro ns _ _ _; rfl
  | cons l rest ih =>
    intro ns hk hlv hlt
    unfold runCollisionPass at *
    rw [List.foldl_cons]
    have hkeys1 : (collideLevel roots E (lvlIds l) ns).map keyOf
        = idLvls 0 roots := by
      rw [collideLevel_map_keyOf, hk]
    have hlv1 : ∀ l2, lvlIds l2 = idsAtLevel (collideLevel roots E (lvlIds l) ns) l2 := by
      intro l2
      rw [hlv l2]
      apply idsAtLevel_congr
      rw [collideLevel_map_keyOf]
    rw [ih _ hkeys1 hlv1 (fun l2 hl2 => hlt l2 (List.mem_cons_of_mem _ hl2))]
    rw [hlv l]
    exact collideLevel_yOf_low roots E l ns x Lx hnd hk hxL
      (hlt l (List.mem_cons_self _ _))

theorem runPass_sep (roots : List MindMapNode) (E : Finset String)
    (lvlIds : ℕ → List String) (hnd : (forestIds roots).Nodup) :
    ∀ (levels : List ℕ) (ns : List PNode),
    ns.map keyOf = idLvls 0 roots →
    (∀ l, lvlIds l = idsAtLevel ns l) →
    List.Pairwise (· < ·) levels →
    ∀ L ∈ levels, ∀ a b, a ≠ b →
    (a, L) ∈ idLvls 0 roots → (b, L) ∈ idLvls 0 roots →
    (yOf (runCollisionPass roots E levels lvlIds ns) a
        + heightOf roots E a / 2 + 52
      ≤ yOf (runCollisionPass roots E levels lvlIds ns) b
        - heightOf roots E b / 2) ∨
    (yOf (runCollisionPass roots E levels lvlIds ns) b
        + heightOf roots E b / 2 + 52
      ≤ yOf (runCollisionPass roots E levels lvlIds ns) a
        - heightOf roots E a / 2) := by
  intro levels
  induction levels with
  | nil => intro ns _ _ _ L hL; cases hL
  | cons l rest ih =>
    intro ns hk hlv hpw L hL a b hab ha hb
    unfold runCollisionPass at *
    rw [List.foldl_cons]
    have hkeys1 : (collideLevel roots E (lvlIds l) ns).map keyOf
        = idLvls 0 roots := by
      rw [collideLevel_map_keyOf, hk]
    have hlv1 : ∀ l2,
        lvlIds l2 = idsAtLevel (collideLevel roots E (lvlIds l) ns) l2 := by
      intro l2
      rw [hlv l2]
      apply idsAtLevel_congr
      rw [collideLevel_map_keyOf]
    rcases List.mem_cons.mp hL with he | hm
    · subst he
      have hrest : ∀ l2 ∈ rest, L < l2 :=
        fun l2 hl2 => (List.pairwise_cons.mp hpw).1 l2 hl2
      have hpa : yOf (List.foldl
            (fun acc lvl => collideLevel roots E (lvlIds lvl) acc) (collideLevel roots E (lvlIds L) ns) rest) a
          = yOf (collideLevel roots E (lvlIds L) ns) a := by
        have := runPass_yOf_low roots E lvlIds hnd a L ha rest
          (collideLevel roots E (lvlIds L) ns) hkeys1 hlv1 hrest
        unfold runCollisionPass at this
        exact this
      have hpb : yOf (List.foldl
            (fun acc lvl => collideLevel roots E (lvlIds lvl) acc) (collideLevel roots E (lvlIds L) ns) rest) b
          = yOf (collideLevel roots E (lvlIds L) ns) b := by
        have := runPass_yOf_low roots E lvlIds hnd b L hb rest
          (collideLevel roots E (lvlIds L) ns) hkeys1 hlv1 hrest
        unfold runCollisionPass at this
        exact this
      rw [hpa, hpb, hlv L]
      exact collideLevel_sep roots E L ns hnd hk a b hab ha hb
    · exact ih (collideLevel roots E (lvlIds l) ns) hkeys1 hlv1
        (List.pairwise_cons.mp hpw).2 L hm a b hab ha hb

theorem le_foldl_max (l : List ℕ) :
    ∀ init : ℕ, init ≤ l.foldl max init ∧ ∀ b ∈ l, b ≤ l.foldl max init := by
  induction l with
  | nil => intro init; exact ⟨le_refl _, fun b hb => absurd hb (by simp)⟩
  | cons a rest ih =>
    intro init
    rw [List.foldl_cons]
    obtain ⟨h1, h2⟩ := ih (max init a)
    refine ⟨le_trans (le_max_left _ _) h1, ?_⟩
    intro b hb
    rcases List.mem_cons.mp hb with he | hm
    · subst he
      exact le_trans (le_max_right _ _) h1
    · exact h2 b hm

theorem mem_levelsOf_of_key (ns : List PNode) (a : String) (L : ℕ)
    (h : (a, L) ∈ ns.map keyOf) : L ∈ levelsOf ns := by
  obtain ⟨p, hp, he⟩ := List.mem_map.mp h
  have hL : p.level = L := congrArg Prod.snd he
  have hmax : L ≤ maxLevelOf ns := by
    rw [← hL]
    exact (le_foldl_max (ns.map (·.level)) 0).2 p.level
      (List.mem_map_of_mem _ hp)
  have hne : idsAtLevel ns L ≠ [] :=
    List.ne_nil_of_mem ((mem_idsAtLevel_key ns a L).mpr h)
  unfold levelsOf
  rw [List.mem_filter]
  exact ⟨List.mem_range.mpr (by omega), by simpa using hne⟩

theorem levelsOf_sorted (ns : List PNode) :
    List.Pairwise (· < ·) (levelsOf ns) :=
  List.Pairwise.sublist (List.filter_sublist _)
    (List.pairwise_lt_range _)

theorem recenterNode_map_keyOf (roots : List MindMapNode) (a : String)
    (ns : List PNode) :
    (recenterNode roots a ns).map keyOf = ns.map keyOf := by
  simp only [recenterNode]
  split
  · rfl
  · exact setYOf_map_keyOf _ _ ns

theorem recenterLevel_map_keyOf (roots : List MindMapNode) :
    ∀ (lids : List String) (ns : List PNode),
    (recenterLevel roots lids ns).map keyOf = ns.map keyOf := by
  intro lids
  induction lids with
  | nil => intro ns; rfl
  | cons a rest ih =>
    intro ns
    unfold recenterLevel at *
    rw [List.foldl_cons, ih, recenterNode_map_keyOf]

theorem recenterAll_map_keyOf (roots : List MindMapNode) (maxLevel : ℕ)
    (lvlIds : ℕ → List String) (ns : List PNode) :
    (recenterAll roots maxLevel lvlIds ns).map keyOf = ns.map keyOf := by
  unfold recenterAll
  generalize (List.range maxLevel).reverse = lvls
  induction lvls generalizing ns with
  | nil => rfl
  | cons l rest ih =>
    rw [List.foldl_cons, ih, recenterLevel_map_keyOf]

theorem placedNodes_keys (E : Finset String) (roots : List MindMapNode) :
    (placedNodes E roots).map keyOf = idLvls 0 roots := by
  unfold placedNodes
  exact placeRoots_keys E roots 50

theorem recenteredNodes_keys (E : Finset String) (roots : List MindMapNode) :
    (recenteredNodes E roots).map keyOf = idLvls 0 roots := by
  unfold recenteredNodes pass1Nodes
  rw [recenterAll_map_keyOf, runPass_map_keyOf]
  exact placedNodes_keys E roots

theorem finalNodes_keys (E : Finset String) (roots : List MindMapNode) :
    (finalNodes E roots).map keyOf = idLvls 0 roots := by
  unfold finalNodes
  rw [runPass_map_keyOf]
  exact recenteredNodes_keys E roots

/-- C2: in the final layout of a well-formed tree (ids unique), any two
distinct nodes sharing a depth level are vertically separated by at least
the sum of their half-heights plus the collision gap 52 (hence also at
least that sum plus the sizing gap 48).  Heights are the per-node
collision heights `heightOf = max(100, estimateSelfHeight)`. -/
theorem layout_min_separation (E : Finset String) (roots : List MindMapNode)
    (hnd : (forestIds roots).Nodup) (p q : PNode)
    (hp : p ∈ finalNodes E roots) (hq : q ∈ finalNodes E roots)
    (hlvl : p.level = q.level) (hne : p.id ≠ q.id) :
    heightOf roots E p.id / 2 + heightOf roots E q.id / 2 + 52
      ≤ |p.y - q.y| := by
  have hkf := finalNodes_keys E roots
  have hpk : (p.id, p.level) ∈ idLvls 0 roots := by
    rw [← hkf]
    exact List.mem_map_of_mem keyOf hp
  have hqk : (q.id, p.level) ∈ idLvls 0 roots := by
    rw [← hkf, hlvl]
    exact List.mem_map_of_mem keyOf hq
  have hkpl := placedNodes_keys E roots
  have hkr := recenteredNodes_keys E roots
  have hL : p.level ∈ levelsOf (placedNodes E roots) := by
    apply mem_levelsOf_of_key _ p.id
    rw [hkpl]
    exact hpk
  have hlv : ∀ l, idsAtLevel (placedNodes E roots) l
      = idsAtLevel (recenteredNodes E roots) l := by
    intro l
    apply idsAtLevel_congr
    rw [hkpl, hkr]
  have hsep := runPass_sep roots E (idsAtLevel (placedNodes E roots)) hnd
    (levelsOf (placedNodes E roots)) (recenteredNodes E roots) hkr hlv
    (levelsOf_sorted _) p.level hL p.id q.id hne hpk hqk
  have hfin : runCollisionPass roots E (levelsOf (placedNodes E roots))
      (idsAtLevel (placedNodes E roots)) (recenteredNodes E roots)
      = finalNodes E roots := rfl
  rw [hfin] at hsep
  have hfnd : ((finalNodes E roots).map (·.id)).Nodup := by
    rw [ids_eq_keys_fst, hkf, idLvls_map_fst]
    exact hnd
  have hyp : yOf (finalNodes E roots) p.id = p.y :=
    yOf_eq_of_mem_nodup _ p hfnd hp
  have hyq : yOf (finalNodes E roots) q.id = q.y :=
    yOf_eq_of_mem_nodup _ q hfnd hq
  rw [hyp, hyq] at hsep
  rcases hsep with h | h
  · calc heightOf roots E p.id / 2 + heightOf roots E q.id / 2 + 52
        ≤ q.y - p.y := by linarith
      _ ≤ |q.y - p.y| := le_abs_self _
      _ = |p.y - q.y| := (abs_sub_comm p.y q.y).symm
  · calc heightOf roots E p.id / 2 + heightOf roots E q.id / 2 + 52
        ≤ p.y - q.y := by linarith
      _ ≤ |p.y - q.y| := le_abs_self _

theorem finalNodes_twoRoots :
    finalNodes ∅ twoRoots
      = [⟨"a", 0, 200, 100, false⟩, ⟨"b", 0, 200, 252, false⟩] := by
  norm_num [finalNodes, recenteredNodes, pass1Nodes, placedNodes, placeRoots,
    placeNode, placeChildren, calcHeight, calcHeightSum, estimateSelfHeight,
    levelsOf, maxLevelOf, idsAtLevel, runCollisionPass, collideLevel,
    collideGo, heightOf, findNode?, findInNode?, subtreeIds, nodeSubtree,
    forestNodes, yOf, shiftIds, recenterAll, recenterLevel, recenterNode,
    childIdsOf, List.insertionSort, List.orderedInsert, bareLeaf, twoRoots,
    descText, keyOf, List.range, List.range.loop, MindMapNode.id,
    MindMapNode.children, MindMapNode.description]
  try simp
  try norm_num [finalNodes, recenteredNodes, pass1Nodes, placedNodes, placeRoots,
    placeNode, placeChildren, calcHeight, calcHeightSum, estimateSelfHeight,
    levelsOf, maxLevelOf, idsAtLevel, runCollisionPass, collideLevel,
    collideGo, heightOf, findNode?, findInNode?, subtreeIds, nodeSubtree,
    forestNodes, yOf, shiftIds, recenterAll, recenterLevel, recenterNode,
    childIdsOf, List.insertionSort, List.orderedInsert, bareLeaf, twoRoots,
    descText, keyOf, List.range, List.range.loop, MindMapNode.id,
    MindMapNode.children, MindMapNode.description]
  try simp
  try norm_num [finalNodes, recenteredNodes, pass1Nodes, placedNodes, placeRoots,
    placeNode, placeChildren, calcHeight, calcHeightSum, estimateSelfHeight,
    levelsOf, maxLevelOf, idsAtLevel, runCollisionPass, collideLevel,
    collideGo, heightOf, findNode?, findInNode?, subtreeIds, nodeSubtree,
    forestNodes, yOf, shiftIds, recenterAll, recenterLevel, recenterNode,
    childIdsOf, List.insertionSort, List.orderedInsert, bareLeaf, twoRoots,
    descText, keyOf, List.range, List.range.loop, MindMapNode.id,
    MindMapNode.children, MindMapNode.description]
  try simp
  try norm_num [finalNodes, recenteredNodes, pass1Nodes, placedNodes, placeRoots,
    placeNode, placeChildren, calcHeight, calcHeightSum, estimateSelfHeight,
    levelsOf, maxLevelOf, idsAtLevel, runCollisionPass, collideLevel,
    collideGo, heightOf, findNode?, findInNode?, subtreeIds, nodeSubtree,
    forestNodes, yOf, shiftIds, recenterAll, recenterLevel, recenterNode,
    childIdsOf, List.insertionSort, List.orderedInsert, bareLeaf, twoRoots,
    descText, keyOf, List.range, List.range.loop, MindMapNode.id,
    MindMapNode.children, MindMapNode.description]

/-- C2 witness: two collapsed leaf roots end at y = 100 and y = 252; both
have collision height 100, and 252 − 100 = 152 = 100/2 + 100/2 + 52. -/
theorem layout_min_separation_witness :
    ((forestIds twoRoots).Nodup ∧
      (⟨"a", 0, 200, 100, false⟩ : PNode) ∈ finalNodes ∅ twoRoots ∧
      (⟨"b", 0, 200, 252, false⟩ : PNode) ∈ finalNodes ∅ twoRoots ∧
      (⟨"a", 0, 200, 100, false⟩ : PNode).level
        = (⟨"b", 0, 200, 252, false⟩ : PNode).level ∧
      (⟨"a", 0, 200, 100, false⟩ : PNode).id
        ≠ (⟨"b", 0, 200, 252, false⟩ : PNode).id) ∧
    heightOf twoRoots ∅ "a" / 2 + heightOf twoRoots ∅ "b" / 2 + 52
      ≤ |(100 : ℚ) - 252| :=
  ⟨⟨by decide, by rw [finalNodes_twoRoots]; simp,
      by rw [finalNodes_twoRoots]; simp, by decide, by decide⟩,
    layout_min_separation ∅ twoRoots (by decide)
      ⟨"a", 0, 200, 100, false⟩ ⟨"b", 0, 200, 252, false⟩
      (by rw [finalNodes_twoRoots]; simp)
      (by rw [finalNodes_twoRoots]; simp) (by decide) (by decide)⟩

theorem childIdsOf_eq_of_find (roots : List MindMapNode) (a : String)
    (m : MindMapNode) (h : findNode? roots a = some m) :
    childIdsOf roots a = m.children.map (·.id) := by
  rw [childIdsOf, h]

theorem childIdsOf_eq_nil (roots : List MindMapNode) (a : String)
    (h : findNode? roots a = none) : childIdsOf roots a = [] := by
  rw [childIdsOf, h]

theorem childIds_pairs (roots : List MindMapNode) (a : String) (L : ℕ)
    (hnd : (forestIds roots).Nodup) (ha : (a, L) ∈ idLvls 0 roots) :
    ∀ k ∈ childIdsOf roots a, (k, L + 1) ∈ idLvls 0 roots := by
  intro k hk
  cases hm : findNode? roots a with
  | none =>
    rw [childIdsOf_eq_nil roots a hm] at hk
    cases hk
  | some m =>
    rw [childIdsOf_eq_of_find roots a m hm] at hk
    obtain ⟨c, hc, hcid⟩ := List.mem_map.mp hk
    obtain ⟨da, _, hmem, hemb⟩ := findNode?_lvls roots a m hm 0
    have heq : da = L :=
      depth_unique _ (idLvls_fst_nodup roots hnd) a da L hmem ha
    subst heq
    have hcp : (c.id, da + 1) ∈ idLvls (da + 1) m.children :=
      child_pair_mem (da + 1) m.children c hc
    have : (c.id, da + 1) ∈ idLvls 0 roots := by
      apply hemb
      rw [nodeLvls_eq]
      exact List.mem_cons_of_mem _ hcp
    rw [← hcid]
    exact this

theorem recenterNode_yOf_ne (roots : List MindMapNode) (b : String)
    (ns : List PNode) (x : String) (hxb : x ≠ b) :
    yOf (recenterNode roots b ns) x = yOf ns x := by
  simp only [recenterNode]
  split
  · rfl
  · exact yOf_setYOf_of_ne _ _ _ _ hxb

theorem recenterNode_yOf_self (roots : List MindMapNode) (b : String)
    (ns : List PNode) (hmem : b ∈ ns.map (·.id))
    (hkid : ¬ (childIdsOf roots b).isEmpty) :
    yOf (recenterNode roots b ns) b
      = ((childIdsOf roots b).map (yOf ns)).sum
        / ((childIdsOf roots b).length : ℚ) := by
  simp only [recenterNode]
  rw [if_neg (by simpa using hkid)]
  exact yOf_setYOf_self _ _ _ hmem

theorem recenterNode_ids (roots : List MindMapNode) (b : String)
    (ns : List PNode) :
    (recenterNode roots b ns).map (·.id) = ns.map (·.id) := by
  rw [ids_eq_keys_fst, ids_eq_keys_fst, recenterNode_map_keyOf]

theorem recenterLevel_cons (roots : List MindMapNode) (b : String)
    (rest : List String) (ns : List PNode) :
    recenterLevel roots (b :: rest) ns
      = recenterLevel roots rest (recenterNode roots b ns) := by
  unfold recenterLevel
  rw [List.foldl_cons]

theorem recenterLevel_yOf_notin (roots : List MindMapNode) :
    ∀ (lids : List String) (ns : List PNode) (x : String), x ∉ lids →
    yOf (recenterLevel roots lids ns) x = yOf ns x := by
  intro lids
  induction lids with
  | nil => intro ns x _; rfl
  | cons b rest ih =>
    intro ns x hx
    rw [recenterLevel_cons,
      ih _ x (fun hh => hx (List.mem_cons_of_mem _ hh))]
    exact recenterNode_yOf_ne roots b ns x
      (fun hh => hx (hh ▸ List.mem_cons_self _ _))

theorem recenterLevel_mean (roots : List MindMapNode) :
    ∀ (lids : List String) (ns : List PNode) (a : String), lids.Nodup →
    a ∈ lids → a ∈ ns.map (·.id) → ¬ (childIdsOf roots a).isEmpty →
    (∀ k ∈ childIdsOf roots a, k ∉ lids) →
    yOf (recenterLevel roots lids ns) a
      = ((childIdsOf roots a).map (yOf ns)).sum
        / ((childIdsOf roots a).length : ℚ) := by
  intro lids
  induction lids with
  | nil => intro ns a _ ha; cases ha
  | cons b rest ih =>
    intro ns a hnd ha hmem hkid hkn
    rw [recenterLevel_cons]
    rcases List.mem_cons.mp ha with he | hm
    · subst he
      have hnotin : a ∉ rest := (List.nodup_cons.mp hnd).1
      rw [recenterLevel_yOf_notin roots rest _ a hnotin]
      exact recenterNode_yOf_self roots a ns hmem hkid
    · have hab : a ≠ b := by
        intro he
        exact (List.nodup_cons.mp hnd).1 (he ▸ hm)
      have hmem1 : a ∈ (recenterNode roots b ns).map (·.id) := by
        rw [recenterNode_ids]
        exact hmem
      have hres := ih (recenterNode roots b ns) a (List.nodup_cons.mp hnd).2
        hm hmem1 hkid (fun k hk => fun hh => hkn k hk (List.mem_cons_of_mem _ hh))
      rw [hres]
      congr 1
      exact congrArg List.sum (List.map_congr_left
        (fun k hk => recenterNode_yOf_ne roots b ns k
          (fun hh => hkn k hk (hh ▸ List.mem_cons_self _ _))))

theorem recFold_spec (roots : List MindMapNode) (lvlIds : ℕ → List String)
    (hnd : (forestIds roots).Nodup) :
    ∀ (lvls : List ℕ) (ns : List PNode),
    ns.map keyOf = idLvls 0 roots →
    (∀ l, lvlIds l = idsAtLevel ns l) →
    List.Pairwise (· > ·) lvls →
    (∀ (x : String) (Lx : ℕ), (x, Lx) ∈ idLvls 0 roots → Lx ∉ lvls →
      yOf (lvls.foldl (fun acc lvl => recenterLevel roots (lvlIds lvl) acc) ns) x
        = yOf ns x) ∧
    (∀ L ∈ lvls, ∀ a, (a, L) ∈ idLvls 0 roots →
      ¬ (childIdsOf roots a).isEmpty →
      yOf (lvls.foldl (fun acc lvl => recenterLevel roots (lvlIds lvl) acc) ns) a
        = ((childIdsOf roots a).map
            (yOf (lvls.foldl (fun acc lvl => recenterLevel roots (lvlIds lvl) acc) ns))).sum
          / ((childIdsOf roots a).length : ℚ)) := by
  intro lvls
  induction lvls with
  | nil =>
    intro ns _ _ _
    exact ⟨fun x Lx _ _ => rfl, fun L hL => absurd hL (by simp)⟩
  | cons L0 rest ih =>
    intro ns hk hlv hpw
    have hkeys1 : (recenterLevel roots (lvlIds L0) ns).map keyOf
        = idLvls 0 roots := by
      rw [recenterLevel_map_keyOf, hk]
    have hlv1 : ∀ l, lvlIds l
        = idsAtLevel (recenterLevel roots (lvlIds L0) ns) l := by
      intro l
      rw [hlv l]
      apply idsAtLevel_congr
      rw [recenterLevel_map_keyOf]
    have hhead : ∀ l ∈ rest, l < L0 :=
      fun l hl => (List.pairwise_cons.mp hpw).1 l hl
    have hIH := ih (recenterLevel roots (lvlIds L0) ns) hkeys1 hlv1
      (List.pairwise_cons.mp hpw).2
    have hidsnd : (ns.map (·.id)).Nodup := by
      rw [ids_eq_keys_fst, hk, idLvls_map_fst]
      exact hnd
    have hnotin_of_ne : ∀ (x : String) (Lx : ℕ), (x, Lx) ∈ idLvls 0 roots →
        Lx ≠ L0 → x ∉ lvlIds L0 := by
      intro x Lx hxK hne hxin
      rw [hlv L0, mem_idsAtLevel_key, hk] at hxin
      exact hne (depth_unique _ (idLvls_fst_nodup roots hnd) x Lx L0 hxK hxin)
    constructor
    · intro x Lx hxK hxn
      rw [List.foldl_cons]
      rw [hIH.1 x Lx hxK (fun hh => hxn (List.mem_cons_of_mem _ hh))]
      exact recenterLevel_yOf_notin roots _ ns x
        (hnotin_of_ne x Lx hxK (fun hh => hxn (hh ▸ List.mem_cons_self _ _)))
    · intro L hL a haK hkid
      have kidsK := childIds_pairs roots a L hnd haK
      rw [List.foldl_cons]
      rcases List.mem_cons.mp hL with he | hm
      · subst he
        have hamem : a ∈ lvlIds L := by
          rw [hlv L, mem_idsAtLevel_key, hk]
          exact haK
        have hlidnd : (lvlIds L).Nodup := by
          rw [hlv L]
          exact idsAtLevel_nodup ns hidsnd L
        have haid : a ∈ ns.map (·.id) := by
          rw [ids_eq_keys_fst, hk]
          show (a, L).1 ∈ _
          exact List.mem_map_of_mem Prod.fst haK
        have hknot : ∀ k ∈ childIdsOf roots a, k ∉ lvlIds L :=
          fun k hk2 => hnotin_of_ne k (L + 1) (kidsK k hk2) (by omega)
        have hs1 := recenterLevel_mean roots (lvlIds L) ns a hlidnd hamem
          haid hkid hknot
        have hLnotrest : L ∉ rest := fun hh => absurd (hhead L hh) (by omega)
        have hafin := hIH.1 a L haK hLnotrest
        rw [hafin, hs1]
        congr 1
        apply congrArg List.sum
        apply List.map_congr_left
        intro k hk2
        have h1 := hIH.1 k (L + 1) (kidsK k hk2)
          (fun hh => absurd (hhead (L + 1) hh) (by omega))
        have h2 := recenterLevel_yOf_notin roots (lvlIds L) ns k
          (hknot k hk2)
        rw [h1, h2]
      · exact hIH.2 L hm a haK hkid

/-- C4 (amended): after the recentering pass — the layout state produced
by the bottom-up recentering, before the second collision pass — every
node with children has its y equal to the arithmetic mean of its
children's y; the second collision pass may then shift a child without
re-updating the parent, so the invariant holds at the recentered stage
rather than in the final output. -/
theorem recentered_mean (E : Finset String) (roots : List MindMapNode)
    (hnd : (forestIds roots).Nodup) (p : PNode)
    (hp : p ∈ recenteredNodes E roots)
    (hkid : childIdsOf roots p.id ≠ []) :
    p.y = ((childIdsOf roots p.id).map (yOf (recenteredNodes E roots))).sum
      / ((childIdsOf roots p.id).length : ℚ) := by
  have hkr := recenteredNodes_keys E roots
  have hk1 : (pass1Nodes E roots).map keyOf = idLvls 0 roots := by
    unfold pass1Nodes
    rw [runPass_map_keyOf]
    exact placedNodes_keys E roots
  have hpk : (p.id, p.level) ∈ idLvls 0 roots := by
    rw [← hkr]
    exact List.mem_map_of_mem keyOf hp
  have hlv : ∀ l, idsAtLevel (placedNodes E roots) l
      = idsAtLevel (pass1Nodes E roots) l := by
    intro l
    apply idsAtLevel_congr
    rw [placedNodes_keys, hk1]
  have hpw : List.Pairwise (· > ·)
      ((List.range (maxLevelOf (placedNodes E roots))).reverse) := by
    rw [List.pairwise_reverse]
    exact List.pairwise_lt_range _
  have hspec := recFold_spec roots (idsAtLevel (placedNodes E roots)) hnd
    ((List.range (maxLevelOf (placedNodes E roots))).reverse)
    (pass1Nodes E roots) hk1 hlv hpw
  have hfold : ((List.range (maxLevelOf (placedNodes E roots))).reverse).foldl
      (fun acc lvl =>
        recenterLevel roots (idsAtLevel (placedNodes E roots) lvl) acc)
      (pass1Nodes E roots) = recenteredNodes E roots := rfl
  rw [hfold] at hspec
  obtain ⟨k0, hk0⟩ := List.exists_mem_of_ne_nil _ hkid
  have hkpair := childIds_pairs roots p.id p.level hnd hpk k0 hk0
  have hlevlt : p.level < maxLevelOf (placedNodes E roots) := by
    rw [← placedNodes_keys E roots] at hkpair
    obtain ⟨q, hq, he⟩ := List.mem_map.mp hkpair
    have hqlvl : q.level = p.level + 1 := congrArg Prod.snd he
    have hmax : q.level ≤ maxLevelOf (placedNodes E roots) := by
      unfold maxLevelOf
      exact (le_foldl_max ((placedNodes E roots).map (·.level)) 0).2 q.level
        (List.mem_map_of_mem _ hq)
    omega
  have hLmem : p.level
      ∈ (List.range (maxLevelOf (placedNodes E roots))).reverse := by
    rw [List.mem_reverse, List.mem_range]
    exact hlevlt
  have hres := hspec.2 p.level hLmem p.id hpk (by simpa using hkid)
  have hfnd : ((recenteredNodes E roots).map (·.id)).Nodup := by
    rw [ids_eq_keys_fst, hkr, idLvls_map_fst]
    exact hnd
  rw [yOf_eq_of_mem_nodup _ p hfnd hp] at hres
  exact hres

set_option maxHeartbeats 2000000 in
theorem meanCex_placed : placedNodes meanCexE [meanCexTree]
    = [⟨"R", 0, 200, 225, false⟩, ⟨"A", 1, 720, 100, false⟩,
       ⟨"B", 1, 720, 227, true⟩, ⟨"b1", 2, 1240, 200, false⟩] := by
  have hx : ("x" : String).length = 1 := rfl
  unfold placedNodes
  norm_num [placeRoots,
    placeNode, placeChildren, calcHeight, calcHeightSum, estimateSelfHeight,
    levelsOf, maxLevelOf, idsAtLevel, runCollisionPass, collideLevel,
    collideGo, heightOf, findNode?, findInNode?, subtreeIds, nodeSubtree,
    forestNodes, yOf, shiftIds, setYOf, recenterAll, recenterLevel,
    recenterNode, childIdsOf, List.insertionSort, List.orderedInsert,
    bareLeaf, meanCexTree, meanCexE, descText, keyOf, List.range,
    List.range.loop, MindMapNode.id, MindMapNode.children,
    MindMapNode.description, hx, min_def, max_def]
  try simp
  try norm_num [placeRoots,
    placeNode, placeChildren, calcHeight, calcHeightSum, estimateSelfHeight,
    levelsOf, maxLevelOf, idsAtLevel, runCollisionPass, collideLevel,
    collideGo, heightOf, findNode?, findInNode?, subtreeIds, nodeSubtree,
    forestNodes, yOf, shiftIds, setYOf, recenterAll, recenterLevel,
    recenterNode, childIdsOf, List.insertionSort, List.orderedInsert,
    bareLeaf, meanCexTree, meanCexE, descText, keyOf, List.range,
    List.range.loop, MindMapNode.id, MindMapNode.children,
    MindMapNode.description, hx, min_def, max_def]
  try simp
  try norm_num [placeRoots,
    placeNode, placeChildren, calcHeight, calcHeightSum, estimateSelfHeight,
    levelsOf, maxLevelOf, idsAtLevel, runCollisionPass, collideLevel,
    collideGo, heightOf, findNode?, findInNode?, subtreeIds, nodeSubtree,
    forestNodes, yOf, shiftIds, setYOf, recenterAll, recenterLevel,
    recenterNode, childIdsOf, List.insertionSort, List.orderedInsert,
    bareLeaf, meanCexTree, meanCexE, descText, keyOf, List.range,
    List.range.loop, MindMapNode.id, MindMapNode.children,
    MindMapNode.description, hx, min_def, max_def]

set_option maxHeartbeats 2000000 in
theorem meanCex_pass1 : pass1Nodes meanCexE [meanCexTree]
    = [⟨"R", 0, 200, 225, false⟩, ⟨"A", 1, 720, 100, false⟩,
       ⟨"B", 1, 720, 279, true⟩, ⟨"b1", 2, 1240, 252, false⟩] := by
  have hx : ("x" : String).length = 1 := rfl
  unfold pass1Nodes
  rw [meanCex_placed]
  norm_num [placeRoots,
    placeNode, placeChildren, calcHeight, calcHeightSum, estimateSelfHeight,
    levelsOf, maxLevelOf, idsAtLevel, runCollisionPass, collideLevel,
    collideGo, heightOf, findNode?, findInNode?, subtreeIds, nodeSubtree,
    forestNodes, yOf, shiftIds, setYOf, recenterAll, recenterLevel,
    recenterNode, childIdsOf, List.insertionSort, List.orderedInsert,
    bareLeaf, meanCexTree, meanCexE, descText, keyOf, List.range,
    List.range.loop, MindMapNode.id, MindMapNode.children,
    MindMapNode.description, hx, min_def, max_def]
  try simp
  try norm_num [placeRoots,
    placeNode, placeChildren, calcHeight, calcHeightSum, estimateSelfHeight,
    levelsOf, maxLevelOf, idsAtLevel, runCollisionPass, collideLevel,
    collideGo, heightOf, findNode?, findInNode?, subtreeIds, nodeSubtree,
    forestNodes, yOf, shiftIds, setYOf, recenterAll, recenterLevel,
    recenterNode, childIdsOf, List.insertionSort, List.orderedInsert,
    bareLeaf, meanCexTree, meanCexE, descText, keyOf, List.range,
    List.range.loop, MindMapNode.id, MindMapNode.children,
    MindMapNode.description, hx, min_def, max_def]
  try simp
  try norm_num [placeRoots,
    placeNode, placeChildren, calcHeight, calcHeightSum, estimateSelfHeight,
    levelsOf, maxLevelOf, idsAtLevel, runCollisionPass, collideLevel,
    collideGo, heightOf, findNode?, findInNode?, subtreeIds, nodeSubtree,
    forestNodes, yOf, shiftIds, setYOf, recenterAll, recenterLevel,
    recenterNode, childIdsOf, List.insertionSort, List.orderedInsert,
    bareLeaf, meanCexTree, meanCexE, descText, keyOf, List.range,
    List.range.loop, MindMapNode.id, MindMapNode.children,
    MindMapNode.description, hx, min_def, max_def]

set_option maxHeartbeats 2000000 in
theorem meanCex_recentered : recenteredNodes meanCexE [meanCexTree]
    = [⟨"R", 0, 200, 176, false⟩, ⟨"A", 1, 720, 100, false⟩,
       ⟨"B", 1, 720, 252, true⟩, ⟨"b1", 2, 1240, 252, false⟩] := by
  have hx : ("x" : String).length = 1 := rfl
  unfold recenteredNodes
  rw [meanCex_placed, meanCex_pass1]
  norm_num [placeRoots,
    placeNode, placeChildren, calcHeight, calcHeightSum, estimateSelfHeight,
    levelsOf, maxLevelOf, idsAtLevel, runCollisionPass, collideLevel,
    collideGo, heightOf, findNode?, findInNode?, subtreeIds, nodeSubtree,
    forestNodes, yOf, shiftIds, setYOf, recenterAll, recenterLevel,
    recenterNode, childIdsOf, List.insertionSort, List.orderedInsert,
    bareLeaf, meanCexTree, meanCexE, descText, keyOf, List.range,
    List.range.loop, MindMapNode.id, MindMapNode.children,
    MindMapNode.description, hx, min_def, max_def]
  try simp
  try norm_num [placeRoots,
    placeNode, placeChildren, calcHeight, calcHeightSum, estimateSelfHeight,
    levelsOf, maxLevelOf, idsAtLevel, runCollisionPass, collideLevel,
    collideGo, heightOf, findNode?, findInNode?, subtreeIds, nodeSubtree,
    forestNodes, yOf, shiftIds, setYOf, recenterAll, recenterLevel,
    recenterNode, childIdsOf, List.insertionSort, List.orderedInsert,
    bareLeaf, meanCexTree, meanCexE, descText, keyOf, List.range,
    List.range.loop, MindMapNode.id, MindMapNode.children,
    MindMapNode.description, hx, min_def, max_def]
  try simp
  try norm_num [placeRoots,
    placeNode, placeChildren, calcHeight, calcHeightSum, estimateSelfHeight,
    levelsOf, maxLevelOf, idsAtLevel, runCollisionPass, collideLevel,
    collideGo, heightOf, findNode?, findInNode?, subtreeIds, nodeSubtree,
    forestNodes, yOf, shiftIds, setYOf, recenterAll, recenterLevel,
    recenterNode, childIdsOf, List.insertionSort, List.orderedInsert,
    bareLeaf, meanCexTree, meanCexE, descText, keyOf, List.range,
    List.range.loop, MindMapNode.id, MindMapNode.children,
    MindMapNode.description, hx, min_def, max_def]

set_option maxHeartbeats 2000000 in
theorem meanCex_final : finalNodes meanCexE [meanCexTree]
    = [⟨"R", 0, 200, 176, false⟩, ⟨"A", 1, 720, 100, false⟩,
       ⟨"B", 1, 720, 279, true⟩, ⟨"b1", 2, 1240, 279, false⟩] := by
  have hx : ("x" : String).length = 1 := rfl
  unfold finalNodes
  rw [meanCex_placed, meanCex_recentered]
  norm_num [placeRoots,
    placeNode, placeChildren, calcHeight, calcHeightSum, estimateSelfHeight,
    levelsOf, maxLevelOf, idsAtLevel, runCollisionPass, collideLevel,
    collideGo, heightOf, findNode?, findInNode?, subtreeIds, nodeSubtree,
    forestNodes, yOf, shiftIds, setYOf, recenterAll, recenterLevel,
    recenterNode, childIdsOf, List.insertionSort, List.orderedInsert,
    bareLeaf, meanCexTree, meanCexE, descText, keyOf, List.range,
    List.range.loop, MindMapNode.id, MindMapNode.children,
    MindMapNode.description, hx, min_def, max_def]
  try simp
  try norm_num [placeRoots,
    placeNode, placeChildren, calcHeight, calcHeightSum, estimateSelfHeight,
    levelsOf, maxLevelOf, idsAtLevel, runCollisionPass, collideLevel,
    collideGo, heightOf, findNode?, findInNode?, subtreeIds, nodeSubtree,
    forestNodes, yOf, shiftIds, setYOf, recenterAll, recenterLevel,
    recenterNode, childIdsOf, List.insertionSort, List.orderedInsert,
    bareLeaf, meanCexTree, meanCexE, descText, keyOf, List.range,
    List.range.loop, MindMapNode.id, MindMapNode.children,
    MindMapNode.description, hx, min_def, max_def]
  try simp
  try norm_num [placeRoots,
    placeNode, placeChildren, calcHeight, calcHeightSum, estimateSelfHeight,
    levelsOf, maxLevelOf, idsAtLevel, runCollisionPass, collideLevel,
    collideGo, heightOf, findNode?, findInNode?, subtreeIds, nodeSubtree,
    forestNodes, yOf, shiftIds, setYOf, recenterAll, recenterLevel,
    recenterNode, childIdsOf, List.insertionSort, List.orderedInsert,
    bareLeaf, meanCexTree, meanCexE, descText, keyOf, List.range,
    List.range.loop, MindMapNode.id, MindMapNode.children,
    MindMapNode.description, hx, min_def, max_def]

/-- C4 counterexample: on the tree `R(A, B(b1))` with `B` expanded, the
final output places `R` at y = 176 while its children sit at 100 and 279
(mean 189.5): the second collision pass moved `B` down after `R` had been
recentered, so the mean invariant fails in the final layout. -/
theorem recenter_claim_cex :
    (⟨"R", 0, 200, 176, false⟩ : PNode) ∈ finalNodes meanCexE [meanCexTree] ∧
    childIdsOf [meanCexTree] "R" = ["A", "B"] ∧
    yOf (finalNodes meanCexE [meanCexTree]) "A" = 100 ∧
    yOf (finalNodes meanCexE [meanCexTree]) "B" = 279 ∧
    (176 : ℚ) ≠ (100 + 279) / 2 := by
  refine ⟨?_, ?_, ?_, ?_, ?_⟩
  · rw [meanCex_final]
    simp
  · decide
  · rw [meanCex_final]
    simp [yOf]
  · rw [meanCex_final]
    simp [yOf]
  · norm_num

set_option maxHeartbeats 2000000 in
theorem recentered_oneChild : recenteredNodes ∅ [oneChildTree]
    = [⟨"R", 0, 200, 100, false⟩, ⟨"A", 1, 720, 100, false⟩] := by
  unfold recenteredNodes
  norm_num [pass1Nodes, placedNodes, placeRoots,
    placeNode, placeChildren, calcHeight, calcHeightSum, estimateSelfHeight,
    levelsOf, maxLevelOf, idsAtLevel, runCollisionPass, collideLevel,
    collideGo, heightOf, findNode?, findInNode?, subtreeIds, nodeSubtree,
    forestNodes, yOf, shiftIds, setYOf, recenterAll, recenterLevel,
    recenterNode, childIdsOf, List.insertionSort, List.orderedInsert,
    bareLeaf, oneChildTree, descText, keyOf, List.range,
    List.range.loop, MindMapNode.id, MindMapNode.children,
    MindMapNode.description]
  try simp
  try norm_num [pass1Nodes, placedNodes, placeRoots,
    placeNode, placeChildren, calcHeight, calcHeightSum, estimateSelfHeight,
    levelsOf, maxLevelOf, idsAtLevel, runCollisionPass, collideLevel,
    collideGo, heightOf, findNode?, findInNode?, subtreeIds, nodeSubtree,
    forestNodes, yOf, shiftIds, setYOf, recenterAll, recenterLevel,
    recenterNode, childIdsOf, List.insertionSort, List.orderedInsert,
    bareLeaf, oneChildTree, descText, keyOf, List.range,
    List.range.loop, MindMapNode.id, MindMapNode.children,
    MindMapNode.description]
  try simp
  try norm_num [pass1Nodes, placedNodes, placeRoots,
    placeNode, placeChildren, calcHeight, calcHeightSum, estimateSelfHeight,
    levelsOf, maxLevelOf, idsAtLevel, runCollisionPass, collideLevel,
    collideGo, heightOf, findNode?, findInNode?, subtreeIds, nodeSubtree,
    forestNodes, yOf, shiftIds, setYOf, recenterAll, recenterLevel,
    recenterNode, childIdsOf, List.insertionSort, List.orderedInsert,
    bareLeaf, oneChildTree, descText, keyOf, List.range,
    List.range.loop, MindMapNode.id, MindMapNode.children,
    MindMapNode.description]

/-- C4 witness (amended claim): a root with one leaf child is recentered
onto its child, y = 100 = 100 / 1. -/
theorem recentered_mean_witness :
    ((forestIds [oneChildTree]).Nodup ∧
      (⟨"R", 0, 200, 100, false⟩ : PNode) ∈ recenteredNodes ∅ [oneChildTree] ∧
      childIdsOf [oneChildTree] "R" ≠ []) ∧
    (⟨"R", 0, 200, 100, false⟩ : PNode).y
      = ((childIdsOf [oneChildTree] "R").map
          (yOf (recenteredNodes ∅ [oneChildTree]))).sum
        / ((childIdsOf [oneChildTree] "R").length : ℚ) :=
  ⟨⟨by decide, by rw [recentered_oneChild]; simp, by decide⟩,
    recentered_mean ∅ [oneChildTree] (by decide) ⟨"R", 0, 200, 100, false⟩
      (by rw [recentered_oneChild]; simp) (by decide)⟩
